import Mathlib

/-!
Verification of the zserio C++ runtime's bit-level wire codec against its
natural-language specification.

The development shallowly embeds the relevant parts of the runtime:

* `src/runtime/src/zserio/BitStreamReader.cpp` — reader context, bit cache,
  `readBitsImpl`, the public checked read operations and the variable-length
  integer decoders;
* `src/runtime/src/zserio/DeltaContext.h` — the delta-packing context;
* `src/runtime/src/zserio/Array.h` — `readArrayLength` for IMPLICIT arrays and
  the `detail::checkOffset` helper;
* the bit stream writer, whose implementation file is not part of the sources
  (only `BitStreamWriter.h` is); it is modelled from the specification.

Machine integers are modelled as `Nat`/`Int` with explicit `% 2^w` at the
points where the C++ code performs narrowing casts or wrapping arithmetic.
Bitwise C++ operations on the cache translate to arithmetic:
`x & MASK_TABLE[n]` is `x % 2^n`, `x >> k` is `x / 2^k`, `x << k` is
`x * 2^k`, and `a | b` on operands occupying disjoint bit ranges is `a + b`.
The build is modelled with `ZSERIO_RUNTIME_64BIT` defined, so the reader's
`BaseType` is `uint64_t` and the cache holds up to 64 bits; `size_t` is
64 bits wide.
-/

/-- Error codes from `src/runtime/src/zserio/ErrorCode.h` (the subset reachable
from the embedded operations). -/
inductive ErrorCode where
  | BufferSizeExceeded
  | EndOfStream
  | InvalidBitPosition
  | InvalidNumBits
  | BufferOverflow
  | WrongBufferBitSize
  | InvalidOffset
  | InvalidParameter
  | OutOfRange
  | DivisionByZero
deriving DecidableEq, Repr

instance {e a : Type _} [DecidableEq e] [DecidableEq a] : DecidableEq (Except e a) := fun x y =>
  match x, y with
  | .error a1, .error a2 =>
      if h : a1 = a2 then isTrue (congrArg Except.error h)
      else isFalse fun hh => h (Except.error.inj hh)
  | .ok a1, .ok a2 =>
      if h : a1 = a2 then isTrue (congrArg Except.ok h)
      else isFalse fun hh => h (Except.ok.inj hh)
  | .error _, .ok _ => isFalse fun hh => Except.noConfusion hh
  | .ok _, .error _ => isFalse fun hh => Except.noConfusion hh

/-- All entries of a byte buffer are in range of `uint8_t`. -/
def bytesOk (buf : List Nat) : Prop := ∀ b ∈ buf, b < 256

instance (buf : List Nat) : Decidable (bytesOk buf) := by
  unfold bytesOk; infer_instance

/-- Bit `i` of a byte stream, MSB-first within each byte (§6: bit-order within
a byte is MSB-first).  Out-of-range bytes read as 0. -/
def bitAt (buf : List Nat) (i : Nat) : Nat :=
  buf.getD (i / 8) 0 / 2 ^ (7 - i % 8) % 2

/-- Value of the `n` bits of the stream starting at bit position `pos`,
read MSB-first (big-endian bit order). -/
def bitsVal (buf : List Nat) (pos : Nat) : Nat → Nat
  | 0 => 0
  | n + 1 => bitsVal buf pos n * 2 + bitAt buf (pos + n)

/-- Reader state, `BitStreamReader::ReaderContext`
(`BitStreamReader.h`, lines 33-68).  The byte span is a `List Nat`. -/
structure ReaderContext where
  buffer : List Nat
  bufferBitSize : Nat
  cache : Nat
  cacheNumBits : Nat
  bitIndex : Nat
deriving DecidableEq, Repr

/-- Max size calculated to prevent overflows in internal comparisons
(`BitStreamReader.cpp`, line 15): `std::numeric_limits<size_t>::max() / 8 - 4`
with 64-bit `size_t`. -/
def MAX_BUFFER_SIZE : Nat := (2 ^ 64 - 1) / 8 - 4

/-- Big-endian parse of `k` bytes starting at `byteIndex`; common form of the
`parse8` .. `parse64` helpers (`BitStreamReader.cpp`, lines 147-197). -/
def parseBytes (buf : List Nat) (byteIndex : Nat) : Nat → Nat
  | 0 => 0
  | k + 1 => parseBytes buf byteIndex k * 256 + buf.getD (byteIndex + k) 0

/-- Loads next bits to the 64-bit cache (`loadCacheNext`,
`BitStreamReader.cpp`, lines 203-262).  The `numBits` argument is unused by
the source as well (it only feeds a commented-out assert).  The `switch` over
`alignedNumBits` dispatches to `parse64` .. `parse8`; its `default` case
parses one byte, which is what `alignedNumBits / 8` yields except in the
unreachable `alignedNumBits = 0` case. -/
def loadCacheNext (ctx : ReaderContext) (_numBits : Nat) : ReaderContext :=
  let byteIndex := ctx.bitIndex / 8
  if ctx.bufferBitSize ≥ ctx.bitIndex + 64 then
    { ctx with cache := parseBytes ctx.buffer byteIndex 8, cacheNumBits := 64 }
  else
    let cacheNumBits := ctx.bufferBitSize - ctx.bitIndex
    let alignedNumBits := (cacheNumBits + 7) / 8 * 8
    let numBytes := if alignedNumBits = 0 then 1 else alignedNumBits / 8
    { ctx with
      cache := parseBytes ctx.buffer byteIndex numBytes / 2 ^ (alignedNumBits - cacheNumBits),
      cacheNumBits := cacheNumBits }

/-- Unchecked implementation of readBits (`readBitsImpl`,
`BitStreamReader.cpp`, lines 265-290).  The branch taken when the cache runs
short drains the cache, reloads it, and shifts the drained bits up; the shared
tail extracts the remaining bits and advances the position. -/
def readBitsImpl (ctx0 : ReaderContext) (numBits0 : Nat) : Nat × ReaderContext :=
  let s :=
    if ctx0.cacheNumBits < numBits0 then
      -- read all remaining cache bits
      let value := ctx0.cache % 2 ^ ctx0.cacheNumBits
      let ctx := { ctx0 with bitIndex := ctx0.bitIndex + ctx0.cacheNumBits }
      let numBits := numBits0 - ctx0.cacheNumBits
      -- load next piece of buffer into cache
      let ctx := loadCacheNext ctx numBits
      -- add the remaining bits to the result (shift guarded when numBits = 64)
      let value := if numBits < 64 then value * 2 ^ numBits else value
      (value, ctx, numBits)
    else
      ((0 : Nat), ctx0, numBits0)
  let value := s.1 + s.2.1.cache / 2 ^ (s.2.1.cacheNumBits - s.2.2) % 2 ^ s.2.2
  (value,
    { s.2.1 with
      cacheNumBits := s.2.1.cacheNumBits - s.2.2,
      bitIndex := s.2.1.bitIndex + s.2.2 })

/-- Conversion of a `uint64_t` pattern to `int64_t`
(`static_cast<BaseSignedType>`). -/
def toInt64 (v : Nat) : Int :=
  if v % 2 ^ 64 < 2 ^ 63 then ((v % 2 ^ 64 : Nat) : Int)
  else ((v % 2 ^ 64 : Nat) : Int) - 2 ^ 64

/-- Conversion of an `int64_t` value to `int32_t` (implementation-defined
wrap-around, as on the targeted platforms). -/
def toInt32 (v : Int) : Int := (v + 2 ^ 31) % 2 ^ 32 - 2 ^ 31

/-- Unchecked version of readSignedBits (`readSignedBitsImpl`,
`BitStreamReader.cpp`, lines 293-308), 64-bit build: `typeSize = 64`.
The subtraction `value -= 1 << numBits` is `uint64_t` wrap-around. -/
def readSignedBitsImpl (ctx : ReaderContext) (numBits : Nat) : Int × ReaderContext :=
  let r := readBitsImpl ctx numBits
  let value := r.1
  let value :=
    if numBits ≠ 0 ∧ numBits < 64 ∧ value ≥ 2 ^ (numBits - 1) then
      (value + 2 ^ 64 - 2 ^ numBits) % 2 ^ 64
    else value
  (toInt64 value, r.2)

/-- Checked 32-bit read (`BitStreamReader::readBits`, `BitStreamReader.cpp`,
lines 356-383).  The success value carries the `static_cast<uint32_t>`. -/
def readBits (ctx : ReaderContext) (numBits : Nat) : Except ErrorCode (Nat × ReaderContext) :=
  if ctx.buffer.length > MAX_BUFFER_SIZE then
    .error .BufferSizeExceeded
  else if ctx.buffer.length < (ctx.bufferBitSize + 7) / 8 then
    .error .WrongBufferBitSize
  else if numBits > 32 then
    .error .InvalidNumBits
  else if ctx.bitIndex + numBits > ctx.bufferBitSize then
    .error .EndOfStream
  else
    let r := readBitsImpl ctx numBits
    .ok (r.1 % 2 ^ 32, r.2)

/-- Checked 64-bit read (`BitStreamReader::readBits64`, `BitStreamReader.cpp`,
lines 385-421), 64-bit build: the success path calls `readBitsImpl` directly. -/
def readBits64 (ctx : ReaderContext) (numBits : Nat) : Except ErrorCode (Nat × ReaderContext) :=
  if ctx.buffer.length > MAX_BUFFER_SIZE then
    .error .BufferSizeExceeded
  else if ctx.buffer.length < (ctx.bufferBitSize + 7) / 8 then
    .error .WrongBufferBitSize
  else if numBits > 64 then
    .error .InvalidNumBits
  else if ctx.bitIndex + numBits > ctx.bufferBitSize then
    .error .EndOfStream
  else
    .ok (readBitsImpl ctx numBits)

/-- Checked signed 32-bit read (`BitStreamReader::readSignedBits`,
`BitStreamReader.cpp`, lines 473-500); the result carries the
`static_cast<int32_t>`. -/
def readSignedBits (ctx : ReaderContext) (numBits : Nat) : Except ErrorCode (Int × ReaderContext) :=
  if ctx.buffer.length > MAX_BUFFER_SIZE then
    .error .BufferSizeExceeded
  else if ctx.buffer.length < (ctx.bufferBitSize + 7) / 8 then
    .error .WrongBufferBitSize
  else if numBits > 32 then
    .error .InvalidNumBits
  else if ctx.bitIndex + numBits > ctx.bufferBitSize then
    .error .EndOfStream
  else
    let r := readSignedBitsImpl ctx numBits
    .ok (toInt32 r.1, r.2)

/-- Checked signed 64-bit read (`BitStreamReader::readSignedBits64`,
`BitStreamReader.cpp`, lines 423-471), 64-bit build. -/
def readSignedBits64 (ctx : ReaderContext) (numBits : Nat) : Except ErrorCode (Int × ReaderContext) :=
  if ctx.buffer.length > MAX_BUFFER_SIZE then
    .error .BufferSizeExceeded
  else if ctx.buffer.length < (ctx.bufferBitSize + 7) / 8 then
    .error .WrongBufferBitSize
  else if numBits > 64 then
    .error .InvalidNumBits
  else if ctx.bitIndex + numBits > ctx.bufferBitSize then
    .error .EndOfStream
  else
    .ok (readSignedBitsImpl ctx numBits)

/-- One-bit boolean read (`BitStreamReader::readBool`, `BitStreamReader.cpp`,
lines 1294-1314). -/
def readBool (ctx : ReaderContext) : Except ErrorCode (Bool × ReaderContext) :=
  if ctx.buffer.length > MAX_BUFFER_SIZE then
    .error .BufferSizeExceeded
  else if ctx.buffer.length < (ctx.bufferBitSize + 7) / 8 then
    .error .WrongBufferBitSize
  else if ctx.bitIndex + 1 > ctx.bufferBitSize then
    .error .EndOfStream
  else
    let r := readBitsImpl ctx 1
    .ok (r.1 ≠ 0, r.2)

/-- Variable-length integer constants (`BitStreamReader.cpp`, lines 135-144). -/
def VARSIZE_MAX_VALUE : Nat := 2 ^ 31 - 1

/-- One byte step shared by the variable-length integer readers: the
`bitIndex + 8 > bufferBitSize` guard followed by
`static_cast<uint8_t>(readBitsImpl(m_context, 8))`, as repeated inline in
every `readVar*` method of `BitStreamReader.cpp`. -/
def nextVarByte (ctx : ReaderContext) : Except ErrorCode (Nat × ReaderContext) :=
  if ctx.bitIndex + 8 > ctx.bufferBitSize then .error .EndOfStream
  else
    let r := readBitsImpl ctx 8
    .ok (r.1 % 256, r.2)

/-- Conversion of an unsigned pattern to the signed type of modulus `M`
(`static_cast<intN_t>` of a `uintN_t` value). -/
def toSigned (M : Nat) (v : Nat) : Int :=
  if v % M < M / 2 then ((v % M : Nat) : Int) else ((v % M : Nat) : Int) - M

/-- Wrap-around of a signed intermediate result into the signed type of
modulus `M` (two's complement). -/
def wrapSigned (M : Nat) (x : Int) : Int := (x + M / 2) % M - M / 2

/-- Sign application `sign ? -static_cast<intN_t>(result)
: static_cast<intN_t>(result)` used by the signed variable-length readers;
the negation wraps at the type boundary. -/
def signAdjust (M : Nat) (sign : Bool) (result : Nat) : Int :=
  if sign then wrapSigned M (-(toSigned M result)) else toSigned M result

/-- Continuation bytes of the signed variable-length readers
(`result = result << 7 | (byte & VARINT_BYTE_N)` guarded by
`byte & VARINT_HAS_NEXT_N`), ending with the full final byte
(`result = result << 8 | byte`).  The fuel counts the remaining
continuation-checked bytes; `M` is the modulus of the accumulator type.
This is the common shape of the unrolled byte 2..K blocks of
`readVarInt16/32/64` and `readVarInt` in `BitStreamReader.cpp`. -/
def readVarIntSteps (M : Nat) (sign : Bool) (result : Nat) (ctx : ReaderContext) :
    Nat → Except ErrorCode (Int × ReaderContext)
  | 0 =>
    match nextVarByte ctx with
    | .error e => .error e
    | .ok (b, ctx') => .ok (signAdjust M sign ((result * 256 + b) % M), ctx')
  | k + 1 =>
    match nextVarByte ctx with
    | .error e => .error e
    | .ok (b, ctx') =>
      let result := (result * 128 + b % 128) % M
      if 128 ≤ b then readVarIntSteps M sign result ctx' k
      else .ok (signAdjust M sign result, ctx')

/-- Continuation bytes of the unsigned variable-length readers
(`result = result << 7 | (byte & VARUINT_BYTE)` guarded by
`byte & VARUINT_HAS_NEXT`), ending with the full final byte.  The common
shape of the unrolled byte blocks of `readVarUInt16/32/64` and `readVarUInt`
in `BitStreamReader.cpp`.  The first byte is the `result = byte & 0x7f` case
with `result = 0` on entry. -/
def readVarUIntSteps (M : Nat) (result : Nat) (ctx : ReaderContext) :
    Nat → Except ErrorCode (Nat × ReaderContext)
  | 0 =>
    match nextVarByte ctx with
    | .error e => .error e
    | .ok (b, ctx') => .ok ((result * 256 + b) % M, ctx')
  | k + 1 =>
    match nextVarByte ctx with
    | .error e => .error e
    | .ok (b, ctx') =>
      let result := (result * 128 + b % 128) % M
      if 128 ≤ b then readVarUIntSteps M result ctx' k
      else .ok (result, ctx')

/-- Common buffer validations at the head of every `readVar*` method. -/
def varPrelude (ctx : ReaderContext) : Option ErrorCode :=
  if ctx.buffer.length > MAX_BUFFER_SIZE then some .BufferSizeExceeded
  else if ctx.buffer.length < (ctx.bufferBitSize + 7) / 8 then some .WrongBufferBitSize
  else none

/-- Signed variable integer up to 64 bits (`BitStreamReader::readVarInt64`,
`BitStreamReader.cpp`, lines 502-608): first byte carries sign (bit 7),
6 payload bits and continuation bit 6; bytes 2..7 carry 7 payload bits;
byte 8 is taken whole. -/
def readVarInt64 (ctx : ReaderContext) : Except ErrorCode (Int × ReaderContext) :=
  match varPrelude ctx with
  | some e => .error e
  | none =>
    match nextVarByte ctx with
    | .error e => .error e
    | .ok (b, ctx1) =>
      let sign := 128 ≤ b        -- (byte & VARINT_SIGN_1) != 0
      let result := b % 64       -- byte & VARINT_BYTE_1
      if ¬64 ≤ b % 128 then      -- (byte & VARINT_HAS_NEXT_1) == 0
        .ok (signAdjust (2 ^ 64) sign result, ctx1)
      else
        readVarIntSteps (2 ^ 64) sign result ctx1 6

/-- Signed variable integer up to 32 bits (`BitStreamReader::readVarInt32`,
`BitStreamReader.cpp`, lines 610-668). -/
def readVarInt32 (ctx : ReaderContext) : Except ErrorCode (Int × ReaderContext) :=
  match varPrelude ctx with
  | some e => .error e
  | none =>
    match nextVarByte ctx with
    | .error e => .error e
    | .ok (b, ctx1) =>
      let sign := 128 ≤ b
      let result := b % 64
      if ¬64 ≤ b % 128 then
        .ok (signAdjust (2 ^ 32) sign result, ctx1)
      else
        readVarIntSteps (2 ^ 32) sign result ctx1 2

/-- Signed variable integer up to 16 bits (`BitStreamReader::readVarInt16`,
`BitStreamReader.cpp`, lines 670-705). -/
def readVarInt16 (ctx : ReaderContext) : Except ErrorCode (Int × ReaderContext) :=
  match varPrelude ctx with
  | some e => .error e
  | none =>
    match nextVarByte ctx with
    | .error e => .error e
    | .ok (b, ctx1) =>
      let sign := 128 ≤ b
      let result := b % 64
      if ¬64 ≤ b % 128 then
        .ok (signAdjust (2 ^ 16) sign result, ctx1)
      else
        readVarIntSteps (2 ^ 16) sign result ctx1 0

/-- Unsigned variable integer up to 64 bits (`BitStreamReader::readVarUInt64`,
`BitStreamReader.cpp`, lines 707-812). -/
def readVarUInt64 (ctx : ReaderContext) : Except ErrorCode (Nat × ReaderContext) :=
  match varPrelude ctx with
  | some e => .error e
  | none => readVarUIntSteps (2 ^ 64) 0 ctx 7

/-- Unsigned variable integer up to 32 bits (`BitStreamReader::readVarUInt32`,
`BitStreamReader.cpp`, lines 814-871). -/
def readVarUInt32 (ctx : ReaderContext) : Except ErrorCode (Nat × ReaderContext) :=
  match varPrelude ctx with
  | some e => .error e
  | none => readVarUIntSteps (2 ^ 32) 0 ctx 3

/-- Unsigned variable integer up to 16 bits (`BitStreamReader::readVarUInt16`,
`BitStreamReader.cpp`, lines 873-907). -/
def readVarUInt16 (ctx : ReaderContext) : Except ErrorCode (Nat × ReaderContext) :=
  match varPrelude ctx with
  | some e => .error e
  | none => readVarUIntSteps (2 ^ 16) 0 ctx 1

/-- Signed variable integer up to 72 bits (`BitStreamReader::readVarInt`,
`BitStreamReader.cpp`, lines 909-1028).  The single-byte case maps the
negative-zero pattern (`sign` set, magnitude 0, no continuation — byte
`0x80`) to `INT64_MIN`; bytes 2..9 behave as in `readVarInt64`. -/
def readVarInt (ctx : ReaderContext) : Except ErrorCode (Int × ReaderContext) :=
  match varPrelude ctx with
  | some e => .error e
  | none =>
    match nextVarByte ctx with
    | .error e => .error e
    | .ok (b, ctx1) =>
      let sign := 128 ≤ b
      let result := b % 64
      if ¬64 ≤ b % 128 then
        .ok
          ((if sign then
              if result = 0 then (-(2 ^ 63) : Int) else wrapSigned (2 ^ 64) (-(toSigned (2 ^ 64) result))
            else toSigned (2 ^ 64) result),
            ctx1)
      else
        readVarIntSteps (2 ^ 64) sign result ctx1 7

/-- Unsigned variable integer up to 72 bits (`BitStreamReader::readVarUInt`,
`BitStreamReader.cpp`, lines 1030-1147). -/
def readVarUInt (ctx : ReaderContext) : Except ErrorCode (Nat × ReaderContext) :=
  match varPrelude ctx with
  | some e => .error e
  | none => readVarUIntSteps (2 ^ 64) 0 ctx 8

/-- Variable size integer up to 40 bits (`BitStreamReader::readVarSize`,
`BitStreamReader.cpp`, lines 1218-1292), unrolled as in the source.  The
accumulator is `uint32_t`, so each combining step reduces modulo `2^32`;
the `> VARSIZE_MAX_VALUE` check runs only after the fifth byte. -/
def readVarSize (ctx : ReaderContext) : Except ErrorCode (Nat × ReaderContext) :=
  match varPrelude ctx with
  | some e => .error e
  | none =>
    match nextVarByte ctx with
    | .error e => .error e
    | .ok (b1, ctx1) =>
      let result := b1 % 128                        -- byte & VARUINT_BYTE
      if ¬128 ≤ b1 then .ok (result, ctx1)          -- (byte & VARUINT_HAS_NEXT) == 0
      else
        match nextVarByte ctx1 with
        | .error e => .error e
        | .ok (b2, ctx2) =>
          let result := (result * 128 + b2 % 128) % 2 ^ 32
          if ¬128 ≤ b2 then .ok (result, ctx2)
          else
            match nextVarByte ctx2 with
            | .error e => .error e
            | .ok (b3, ctx3) =>
              let result := (result * 128 + b3 % 128) % 2 ^ 32
              if ¬128 ≤ b3 then .ok (result, ctx3)
              else
                match nextVarByte ctx3 with
                | .error e => .error e
                | .ok (b4, ctx4) =>
                  let result := (result * 128 + b4 % 128) % 2 ^ 32
                  if ¬128 ≤ b4 then .ok (result, ctx4)
                  else
                    match nextVarByte ctx4 with
                    | .error e => .error e
                    | .ok (b5, ctx5) =>
                      let result := (result * 256 + b5) % 2 ^ 32
                      if result > VARSIZE_MAX_VALUE then .error .OutOfRange
                      else .ok (result, ctx5)

/-- Sixteen-bit float read (`BitStreamReader::readFloat16`,
`BitStreamReader.cpp`, lines 1149-1170).  The success value is the raw
half-precision bit pattern; the IEEE 754 reinterpretation
(`convertUInt16ToFloat`, FloatUtil) is outside the bit-level model. -/
def readFloat16 (ctx : ReaderContext) : Except ErrorCode (Nat × ReaderContext) :=
  if ctx.buffer.length > MAX_BUFFER_SIZE then .error .BufferSizeExceeded
  else if ctx.buffer.length < (ctx.bufferBitSize + 7) / 8 then .error .WrongBufferBitSize
  else if ctx.bitIndex + 16 > ctx.bufferBitSize then .error .EndOfStream
  else
    let r := readBitsImpl ctx 16
    .ok (r.1 % 2 ^ 16, r.2)

/-- Thirty-two-bit float read (`BitStreamReader::readFloat32`,
`BitStreamReader.cpp`, lines 1172-1193); raw bit pattern as for `readFloat16`. -/
def readFloat32 (ctx : ReaderContext) : Except ErrorCode (Nat × ReaderContext) :=
  if ctx.buffer.length > MAX_BUFFER_SIZE then .error .BufferSizeExceeded
  else if ctx.buffer.length < (ctx.bufferBitSize + 7) / 8 then .error .WrongBufferBitSize
  else if ctx.bitIndex + 32 > ctx.bufferBitSize then .error .EndOfStream
  else
    let r := readBitsImpl ctx 32
    .ok (r.1 % 2 ^ 32, r.2)

/-- Sixty-four-bit float read (`BitStreamReader::readFloat64`,
`BitStreamReader.cpp`, lines 1195-1216); raw bit pattern as for `readFloat16`. -/
def readFloat64 (ctx : ReaderContext) : Except ErrorCode (Nat × ReaderContext) :=
  if ctx.buffer.length > MAX_BUFFER_SIZE then .error .BufferSizeExceeded
  else if ctx.buffer.length < (ctx.bufferBitSize + 7) / 8 then .error .WrongBufferBitSize
  else if ctx.bitIndex + 64 > ctx.bufferBitSize then .error .EndOfStream
  else
    .ok (readBitsImpl ctx 64)

/-- Bit length of an absolute delta (`detail::absDeltaBitLength`,
`DeltaContext.h`, lines 21-31): counts shifts until the value reaches zero. -/
def absDeltaBitLength (absDelta : Nat) : Nat :=
  if absDelta = 0 then 0 else absDeltaBitLength (absDelta / 2) + 1
termination_by absDelta
decreasing_by exact Nat.div_lt_self (Nat.pos_of_ne_zero (by assumption)) one_lt_two

/-- Cast of an element value to `uint64_t` (`static_cast<uint64_t>(element)`);
element types are integral, so the cast reduces modulo `2^64`. -/
def toU64 (x : Int) : Nat := (x % (2 ^ 64 : Nat)).toNat

/-- Bit length of the delta between two elements (`detail::calcBitLength`,
`DeltaContext.h`, lines 34-42): the comparison is on the element type and
the subtraction is `uint64_t` wrap-around. -/
def calcBitLength (lhs rhs : Int) : Nat :=
  let absDelta :=
    if lhs > rhs then (toU64 lhs + 2 ^ 64 - toU64 rhs) % 2 ^ 64
    else (toU64 rhs + 2 ^ 64 - toU64 lhs) % 2 ^ 64
  absDeltaBitLength absDelta

/-- Array-traits parameters the delta context needs: the element's unpacked
bit size (`ARRAY_TRAITS::bitSizeOf`) and the `static_cast` from the stored
`uint64_t` back to the element type.  Elements are modelled as `Int`. -/
structure ElemTraits where
  bitSizeOf : Int → Nat
  fromU64 : Nat → Int

/-- Delta-packing context state (`DeltaContext`, `DeltaContext.h`,
lines 62-452).  The three flag bits of `m_flags` (`INIT_STARTED_FLAG = 0x01`,
`IS_PACKED_FLAG = 0x02`, `PROCESSING_STARTED_FLAG = 0x04`) are separate
`Bool` fields; `setFlag`/`resetFlag` touch exactly one bit each.  Field
widths: `m_previousElement : uint64_t`, `m_maxBitNumber : uint8_t`,
`m_firstElementBitSize : uint8_t`, `m_numElements : uint32_t`,
`m_unpackedBitSize : size_t`. -/
structure DeltaContext where
  previousElement : Nat := 0
  maxBitNumber : Nat := 0
  initStarted : Bool := false
  isPacked : Bool := false
  processingStarted : Bool := false
  firstElementBitSize : Nat := 0
  numElements : Nat := 0
  unpackedBitSize : Nat := 0
deriving DecidableEq, Repr

/-- MAX_BIT_NUMBER_LIMIT (`DeltaContext.h`, line 439). -/
def MAX_BIT_NUMBER_LIMIT : Nat := 62

/-- MAX_BIT_NUMBER_BITS (`DeltaContext.h`, line 438). -/
def MAX_BIT_NUMBER_BITS : Nat := 6

/-- Initialization step for a single element (`DeltaContext::init`,
`DeltaContext.h`, lines 86-116).  `m_numElements++` wraps at `uint32_t`,
`m_unpackedBitSize +=` wraps at `size_t`, and
`m_firstElementBitSize = static_cast<uint8_t>(m_unpackedBitSize)`
truncates to `uint8_t`. -/
def DeltaContext.init (tr : ElemTraits) (c : DeltaContext) (element : Int) : DeltaContext :=
  let c := { c with
    numElements := (c.numElements + 1) % 2 ^ 32,
    unpackedBitSize := (c.unpackedBitSize + tr.bitSizeOf element) % 2 ^ 64 }
  if ¬c.initStarted then
    { c with
      initStarted := true,
      previousElement := toU64 element,
      firstElementBitSize := c.unpackedBitSize % 256 }
  else if c.maxBitNumber ≤ MAX_BIT_NUMBER_LIMIT then
    let c := { c with isPacked := true }
    let previousElement := tr.fromU64 c.previousElement
    let maxBitNumber := calcBitLength element previousElement
    let c :=
      if maxBitNumber > c.maxBitNumber then
        let c := { c with maxBitNumber := maxBitNumber }
        if c.maxBitNumber > MAX_BIT_NUMBER_LIMIT then { c with isPacked := false } else c
      else c
    { c with previousElement := toU64 element }
  else c

/-- Packing decision (`DeltaContext::finishInit`, `DeltaContext.h`,
lines 291-304).  `m_numElements - 1` is `uint32_t` subtraction and the bit
counts are `size_t` sums. -/
def DeltaContext.finishInit (c : DeltaContext) : DeltaContext :=
  if c.isPacked then
    let deltaBitSize := c.maxBitNumber + (if c.maxBitNumber > 0 then 1 else 0)
    let packedBitSizeWithDescriptor :=
      (1 + MAX_BIT_NUMBER_BITS + c.firstElementBitSize +
        (c.numElements + 2 ^ 32 - 1) % 2 ^ 32 * deltaBitSize) % 2 ^ 64
    let unpackedBitSizeWithDescriptor := (1 + c.unpackedBitSize) % 2 ^ 64
    if packedBitSizeWithDescriptor ≥ unpackedBitSizeWithDescriptor then
      { c with isPacked := false }
    else c
  else c

/-- Length of an IMPLICIT-shape array computed at read time
(`Array::readArrayLength` for `ArrayType::IMPLICIT`, `Array.h`,
lines 980-994).  `remainingBits` is the `size_t` difference
`in.getBufferBitSize() - in.getBitPosition()` (wrap-around subtraction). -/
def readArrayLengthImplicit (bufferBitSize bitPosition elementBitSize : Nat) :
    Except ErrorCode Nat :=
  let remainingBits := (bufferBitSize + 2 ^ 64 - bitPosition) % 2 ^ 64
  if elementBitSize = 0 then .error .DivisionByZero
  else .ok (remainingBits / elementBitSize)

/-- Offset-check dispatcher (`detail::checkOffset`, `Array.h`, lines 82-92)
for expressions objects that do have a `checkOffset` hook: it invokes
`ARRAY_EXPRESSIONS::checkOffset(owner, index, bitPosition)` as a statement
and returns `void`, discarding whatever the hook produces.  The hook is
abstracted as a function into `Except ErrorCode Unit` (the spec's read-path
contract for offset mismatches). -/
def detailCheckOffset {OWNER : Type}
    (exprCheckOffset : OWNER → Nat → Nat → Except ErrorCode Unit)
    (owner : OWNER) (index : Nat) (bitPosition : Nat) : Unit :=
  let _ := exprCheckOffset owner index bitPosition
  ()

/-- Modelled from the spec: the bit stream writer implementation
(`BitStreamWriter.cpp`) is not among the sources, only its interface
(`BitStreamWriter.h`).  Per §4.2 the writer emits bits into a span
MSB-first, big-endian within each byte, and each write first checks
capacity `bitIndex + width ≤ bufferBitSize`, failing with `BufferOverflow`.
The state records the declared buffer bit size and the stream of emitted
bits (`bitIndex` is `bits.length`). -/
structure WriterState where
  bufferBitSize : Nat
  bits : List Nat
deriving DecidableEq, Repr

/-- MSB-first bit decomposition of the low `n` bits of `v`. -/
def toBits (v n : Nat) : List Nat :=
  (List.range n).map fun i => v / 2 ^ (n - 1 - i) % 2

/-- Modelled from the spec: `BitStreamWriter::writeBits(data, numBits)`
(declared in `BitStreamWriter.h`, lines 100-108; implementation missing).
Per §4.2: capacity check `bitIndex + width ≤ bufferBitSize` with
`BufferOverflow` on failure, then the `numBits` bits of `data` are emitted
MSB-first and the bit index advances by the width. -/
def writeBits (w : WriterState) (data numBits : Nat) : Except ErrorCode WriterState :=
  if w.bits.length + numBits ≤ w.bufferBitSize then
    .ok { w with bits := w.bits ++ toBits (data % 2 ^ 32) numBits }
  else .error .BufferOverflow

/-- Value of a run of up to 8 bits as the high bits of one byte: a full group
of 8 becomes the byte, a final partial group is stored in the most
significant positions with the low bits zeroed (§3, bit buffer; §4.2). -/
def byteOfBits (l : List Nat) : Nat :=
  l.foldl (fun a b => 2 * a + b) 0 * 2 ^ (8 - l.length)

/-- Packing of an emitted bit stream into the produced byte span, 8 bits per
byte MSB-first (§4.2/§6: the writer's byte image of the emitted bits). -/
def packBytes (l : List Nat) : List Nat :=
  if l = [] then [] else byteOfBits (l.take 8) :: packBytes (l.drop 8)
termination_by l.length
decreasing_by
  simp only [List.length_drop]
  exact Nat.sub_lt (List.length_pos.mpr (by assumption)) (by omega)

/-- Predicted size of an `n`-bit fixed-width scalar (§4.1/§8: the size of a
fixed-width field is its declared width; `bitSizeOf` for such a value). -/
def bitSizeOfFixed (numBits : Nat) (_v : Nat) : Nat := numBits

/-- Fresh reader over a byte span with an exact bit size
(`BitStreamReader::BitStreamReader(Span, bufferBitSize)`,
`BitStreamReader.cpp`, lines 346-350: cache and indices start at zero). -/
def mkReader (buf : List Nat) (bufferBitSize : Nat) : ReaderContext :=
  { buffer := buf, bufferBitSize := bufferBitSize, cache := 0, cacheNumBits := 0, bitIndex := 0 }

/-- Number of bytes of the varsize encoding that begins with the given five
candidate bytes, per the §4.1 table: bytes 1..4 carry a continuation bit
(MSB), the fifth byte is always final. -/
def varSizeSpecLen (b1 b2 b3 b4 : Nat) : Nat :=
  if b1 < 128 then 1
  else if b2 < 128 then 2
  else if b3 < 128 then 3
  else if b4 < 128 then 4
  else 5

/-- Decoded value of a varsize encoding per the §4.1 table (the reference
decode: 7 payload bits from each of bytes 1..4, all 8 bits of byte 5), with
no width truncation. -/
def varSizeSpecVal (b1 b2 b3 b4 b5 : Nat) : Nat :=
  if b1 < 128 then b1 % 128
  else if b2 < 128 then b1 % 128 * 128 + b2 % 128
  else if b3 < 128 then (b1 % 128 * 128 + b2 % 128) * 128 + b3 % 128
  else if b4 < 128 then ((b1 % 128 * 128 + b2 % 128) * 128 + b3 % 128) * 128 + b4 % 128
  else (((b1 % 128 * 128 + b2 % 128) * 128 + b3 % 128) * 128 + b4 % 128) * 256 + b5

theorem bitAt_lt (buf : List Nat) (i : Nat) : bitAt buf i < 2 :=
  Nat.mod_lt _ (by omega)

theorem bitsVal_lt (buf : List Nat) (pos n : Nat) : bitsVal buf pos n < 2 ^ n := by
  induction n with
  | zero => simp [bitsVal]
  | succ k ih =>
    have h := bitAt_lt buf (pos + k)
    simp only [bitsVal, pow_succ]
    omega

theorem bitsVal_add (buf : List Nat) (pos m n : Nat) :
    bitsVal buf pos (m + n) = bitsVal buf pos m * 2 ^ n + bitsVal buf (pos + m) n := by
  induction n with
  | zero => simp [bitsVal]
  | succ k ih =>
    have h : m + (k + 1) = (m + k) + 1 := by omega
    rw [h]
    simp only [bitsVal, ih, pow_succ]
    have h2 : pos + (m + k) = pos + m + k := by omega
    rw [h2]
    try ring

theorem getD_lt_256 {buf : List Nat} (h : bytesOk buf) (m : Nat) : buf.getD m 0 < 256 := by
  by_cases hm : m < buf.length
  · rw [List.getD_eq_getElem buf 0 hm]
    exact h _ (List.getElem_mem _)
  · rw [List.getD_eq_default buf 0 (by omega)]
    omega

theorem bitsVal_of_bits (buf : List Nat) (p v : Nat) :
    ∀ n, (∀ i, i < n → bitAt buf (p + i) = v / 2 ^ (n - 1 - i) % 2) → v < 2 ^ n →
      bitsVal buf p n = v := by
  intro n
  induction n generalizing v with
  | zero => intro _ hv; simp [bitsVal]; omega
  | succ k ih =>
    intro hbits hv
    have hlast : bitAt buf (p + k) = v % 2 := by
      have := hbits k (by omega)
      simpa using this
    have hrest : bitsVal buf p k = v / 2 := by
      refine ih (v / 2) (fun i hi => ?_) (by rw [pow_succ] at hv; omega)
      have h1 := hbits i (by omega)
      have h2 : v / 2 / 2 ^ (k - 1 - i) = v / 2 ^ (k + 1 - 1 - i) := by
        rw [Nat.div_div_eq_div_mul]
        congr 1
        have : k + 1 - 1 - i = (k - 1 - i) + 1 := by omega
        rw [this, pow_succ]
        ring
      rw [h2, h1]
    simp only [bitsVal, hlast, hrest]
    have := Nat.div_add_mod v 2
    omega

theorem bitsVal_byte {buf : List Nat} (h : bytesOk buf) (m : Nat) :
    bitsVal buf (8 * m) 8 = buf.getD m 0 := by
  refine bitsVal_of_bits buf (8 * m) (buf.getD m 0) 8 (fun i hi => ?_) (getD_lt_256 h m)
  unfold bitAt
  have h1 : (8 * m + i) / 8 = m := by omega
  have h2 : (8 * m + i) % 8 = i := by omega
  rw [h1, h2]

theorem parseBytes_eq {buf : List Nat} (h : bytesOk buf) (j : Nat) :
    ∀ k, parseBytes buf j k = bitsVal buf (8 * j) (8 * k) := by
  intro k
  induction k with
  | zero => simp [parseBytes, bitsVal]
  | succ n ih =>
    have h8 : 8 * (n + 1) = 8 * n + 8 := by ring
    rw [parseBytes, ih, h8, bitsVal_add buf (8 * j) (8 * n) 8]
    have : 8 * j + 8 * n = 8 * (j + n) := by ring
    rw [this, bitsVal_byte h (j + n)]
    norm_num

theorem extract_bits (cache X Y n d : Nat) (hX : X < 2 ^ n) (hY : Y < 2 ^ d)
    (h : cache % 2 ^ (n + d) = X * 2 ^ d + Y) :
    cache / 2 ^ d % 2 ^ n = X ∧ cache % 2 ^ d = Y := by
  have hq := Nat.div_add_mod cache (2 ^ (n + d))
  set q := cache / 2 ^ (n + d) with hqdef
  have hform : cache = 2 ^ d * (q * 2 ^ n + X) + Y := by
    rw [← hq, h, pow_add]; ring
  have hdiv : cache / 2 ^ d = q * 2 ^ n + X := by
    conv_lhs => rw [hform]
    rw [Nat.mul_add_div (pow_pos (by omega) d), Nat.div_eq_of_lt hY, Nat.add_zero]
  constructor
  · rw [hdiv, Nat.mul_add_mod', Nat.mod_eq_of_lt hX]
  · conv_lhs => rw [hform]
    rw [Nat.mul_add_mod, Nat.mod_eq_of_lt hY]

/-- Well-formedness of a reader context: bytes are in `uint8_t` range, the
cache holds at most 64 bits, the cached bits lie inside the stream, the cache
boundary (`bitIndex + cacheNumBits`) is byte-aligned unless it coincides with
the end of the stream, and the low `cacheNumBits` bits of the cache are
exactly the stream bits starting at `bitIndex`. -/
def ctxInv (ctx : ReaderContext) : Prop :=
  bytesOk ctx.buffer ∧
  ctx.cacheNumBits ≤ 64 ∧
  ctx.bitIndex + ctx.cacheNumBits ≤ ctx.bufferBitSize ∧
  (8 ∣ ctx.bitIndex + ctx.cacheNumBits ∨ ctx.bitIndex + ctx.cacheNumBits = ctx.bufferBitSize) ∧
  ctx.cache % 2 ^ ctx.cacheNumBits = bitsVal ctx.buffer ctx.bitIndex ctx.cacheNumBits

instance (ctx : ReaderContext) : Decidable (ctxInv ctx) := by
  unfold ctxInv; infer_instance

theorem mkReader_inv {buf : List Nat} (h : bytesOk buf) (bitSize : Nat) :
    ctxInv (mkReader buf bitSize) := by
  refine ⟨h, by simp [mkReader], by simp [mkReader], ?_, by simp [mkReader, bitsVal]⟩
  left
  simp [mkReader]

theorem loadCacheNext_spec (ctx : ReaderContext) (numBits : Nat)
    (hok : bytesOk ctx.buffer)
    (h8 : 8 ∣ ctx.bitIndex)
    (h1 : 1 ≤ numBits) (h64 : numBits ≤ 64)
    (hle : ctx.bitIndex + numBits ≤ ctx.bufferBitSize) :
    (loadCacheNext ctx numBits).buffer = ctx.buffer ∧
    (loadCacheNext ctx numBits).bufferBitSize = ctx.bufferBitSize ∧
    (loadCacheNext ctx numBits).bitIndex = ctx.bitIndex ∧
    numBits ≤ (loadCacheNext ctx numBits).cacheNumBits ∧
    (loadCacheNext ctx numBits).cacheNumBits ≤ 64 ∧
    ctx.bitIndex + (loadCacheNext ctx numBits).cacheNumBits ≤ ctx.bufferBitSize ∧
    (loadCacheNext ctx numBits).cache =
      bitsVal ctx.buffer ctx.bitIndex (loadCacheNext ctx numBits).cacheNumBits ∧
    (8 ∣ ctx.bitIndex + (loadCacheNext ctx numBits).cacheNumBits ∨
      ctx.bitIndex + (loadCacheNext ctx numBits).cacheNumBits = ctx.bufferBitSize) := by
  obtain ⟨b, hb⟩ := h8
  have hbyte : ctx.bitIndex / 8 = b := by omega
  by_cases hfull : ctx.bufferBitSize ≥ ctx.bitIndex + 64
  · have heq : loadCacheNext ctx numBits =
        { ctx with cache := parseBytes ctx.buffer b 8, cacheNumBits := 64 } := by
      unfold loadCacheNext
      rw [if_pos hfull, hbyte]
    rw [heq]
    dsimp only
    refine ⟨rfl, rfl, rfl, h64, le_refl _, by omega, ?_, ?_⟩
    · rw [parseBytes_eq hok b 8, hb]
    · left
      omega
  · have hc1 : 1 ≤ ctx.bufferBitSize - ctx.bitIndex := by omega
    have hc64 : ctx.bufferBitSize - ctx.bitIndex < 64 := by omega
    set c := ctx.bufferBitSize - ctx.bitIndex with hc
    have haligned : ¬(c + 7) / 8 * 8 = 0 := by omega
    have heq : loadCacheNext ctx numBits =
        { ctx with
          cache := parseBytes ctx.buffer b ((c + 7) / 8 * 8 / 8) / 2 ^ ((c + 7) / 8 * 8 - c),
          cacheNumBits := c } := by
      unfold loadCacheNext
      rw [if_neg (by omega), hbyte]
      dsimp only
      rw [if_neg haligned, ← hc]
    rw [heq]
    dsimp only
    have hbytes : (c + 7) / 8 * 8 / 8 = (c + 7) / 8 := by omega
    have hcacheval : parseBytes ctx.buffer b ((c + 7) / 8 * 8 / 8) / 2 ^ ((c + 7) / 8 * 8 - c) =
        bitsVal ctx.buffer ctx.bitIndex c := by
      rw [hbytes, parseBytes_eq hok b ((c + 7) / 8)]
      have hsplit : 8 * ((c + 7) / 8) = c + ((c + 7) / 8 * 8 - c) := by omega
      rw [hsplit, bitsVal_add, ← hb,
        mul_comm (bitsVal ctx.buffer ctx.bitIndex c) (2 ^ ((c + 7) / 8 * 8 - c)),
        Nat.mul_add_div (pow_pos (by omega) _),
        Nat.div_eq_of_lt (bitsVal_lt _ _ _), Nat.add_zero]
    exact ⟨rfl, rfl, rfl, by omega, by omega, by omega, hcacheval, by right; omega⟩

theorem readBitsImpl_spec (ctx : ReaderContext) (numBits : Nat)
    (hinv : ctxInv ctx) (hn : numBits ≤ 64)
    (hle : ctx.bitIndex + numBits ≤ ctx.bufferBitSize) :
    (readBitsImpl ctx numBits).1 = bitsVal ctx.buffer ctx.bitIndex numBits ∧
    (readBitsImpl ctx numBits).2.buffer = ctx.buffer ∧
    (readBitsImpl ctx numBits).2.bufferBitSize = ctx.bufferBitSize ∧
    (readBitsImpl ctx numBits).2.bitIndex = ctx.bitIndex + numBits ∧
    ctxInv (readBitsImpl ctx numBits).2 := by
  obtain ⟨hok, hc64, hcle, halign, hcache⟩ := hinv
  by_cases hshort : ctx.cacheNumBits < numBits
  · -- cache runs short: drain, reload, combine
    have h8A : 8 ∣ ctx.bitIndex + ctx.cacheNumBits := by
      rcases halign with h | h
      · exact h
      · omega
    simp only [readBitsImpl, if_pos hshort]
    try dsimp only
    set nb := numBits - ctx.cacheNumBits with hnbdef
    have hnb1 : 1 ≤ nb := by omega
    have hnb64 : nb ≤ 64 := by omega
    have hload := loadCacheNext_spec
      { ctx with bitIndex := ctx.bitIndex + ctx.cacheNumBits } nb hok h8A hnb1 hnb64
      (by dsimp only; omega)
    try dsimp only at hload
    set ctx2 := loadCacheNext { ctx with bitIndex := ctx.bitIndex + ctx.cacheNumBits } nb
      with h2
    obtain ⟨lb, lsz, lbi, lc1, lc2, lc3, lc4, lc5⟩ := hload
    have hsplitc2 : bitsVal ctx.buffer (ctx.bitIndex + ctx.cacheNumBits) ctx2.cacheNumBits =
        bitsVal ctx.buffer (ctx.bitIndex + ctx.cacheNumBits) nb * 2 ^ (ctx2.cacheNumBits - nb) +
          bitsVal ctx.buffer (ctx.bitIndex + ctx.cacheNumBits + nb) (ctx2.cacheNumBits - nb) := by
      have h := bitsVal_add ctx.buffer (ctx.bitIndex + ctx.cacheNumBits) nb
        (ctx2.cacheNumBits - nb)
      rw [← h]
      congr 1
      omega
    have hmod2 : ctx2.cache % 2 ^ (nb + (ctx2.cacheNumBits - nb)) = ctx2.cache := by
      apply Nat.mod_eq_of_lt
      calc ctx2.cache < 2 ^ ctx2.cacheNumBits := by
            rw [lc4]; exact bitsVal_lt _ _ _
        _ ≤ 2 ^ (nb + (ctx2.cacheNumBits - nb)) := Nat.pow_le_pow_right (by omega) (by omega)
    have hextract := extract_bits ctx2.cache
      (bitsVal ctx.buffer (ctx.bitIndex + ctx.cacheNumBits) nb)
      (bitsVal ctx.buffer (ctx.bitIndex + ctx.cacheNumBits + nb) (ctx2.cacheNumBits - nb))
      nb (ctx2.cacheNumBits - nb) (bitsVal_lt _ _ _) (bitsVal_lt _ _ _)
      (by rw [hmod2, lc4, hsplitc2])
    have hsum : bitsVal ctx.buffer ctx.bitIndex numBits =
        bitsVal ctx.buffer ctx.bitIndex ctx.cacheNumBits * 2 ^ nb +
          bitsVal ctx.buffer (ctx.bitIndex + ctx.cacheNumBits) nb := by
      have h := bitsVal_add ctx.buffer ctx.bitIndex ctx.cacheNumBits nb
      rw [← h]
      congr 1
      omega
    refine ⟨?_, lb, lsz, by omega, ?_⟩
    · -- the produced value
      rw [hextract.1, hcache]
      by_cases h64' : nb < 64
      · rw [if_pos h64', hsum]
      · rw [if_neg h64']
        have hc0 : ctx.cacheNumBits = 0 := by omega
        have hnbn : numBits = nb := by omega
        rw [hc0, hnbn]
        simp [bitsVal]
    · -- the invariant for the updated context
      unfold ctxInv
      dsimp only
      refine ⟨by rw [lb]; exact hok, by omega, by omega, ?_, ?_⟩
      · rcases lc5 with h | h
        · left
          have heq : ctx2.bitIndex + nb + (ctx2.cacheNumBits - nb) =
              ctx.bitIndex + ctx.cacheNumBits + ctx2.cacheNumBits := by omega
          rw [heq]
          exact h
        · right
          omega
      · have h := hextract.2
        rw [lb, lbi]
        exact h
  · -- enough cached bits
    have hshort' : numBits ≤ ctx.cacheNumBits := by omega
    have hsplit : bitsVal ctx.buffer ctx.bitIndex ctx.cacheNumBits =
        bitsVal ctx.buffer ctx.bitIndex numBits * 2 ^ (ctx.cacheNumBits - numBits) +
          bitsVal ctx.buffer (ctx.bitIndex + numBits) (ctx.cacheNumBits - numBits) := by
      have h := bitsVal_add ctx.buffer ctx.bitIndex numBits (ctx.cacheNumBits - numBits)
      rw [← h]
      congr 1
      omega
    have harg : numBits + (ctx.cacheNumBits - numBits) = ctx.cacheNumBits := by omega
    have hextract := extract_bits ctx.cache (bitsVal ctx.buffer ctx.bitIndex numBits)
      (bitsVal ctx.buffer (ctx.bitIndex + numBits) (ctx.cacheNumBits - numBits))
      numBits (ctx.cacheNumBits - numBits)
      (bitsVal_lt _ _ _) (bitsVal_lt _ _ _) (by rw [harg, hcache, hsplit])
    simp only [readBitsImpl, if_neg hshort]
    try dsimp only
    refine ⟨by rw [Nat.zero_add]; exact hextract.1, True.intro, True.intro, True.intro, ?_⟩
    unfold ctxInv
    try dsimp only
    refine ⟨hok, by omega, by omega, ?_, hextract.2⟩
    rcases halign with h | h
    · left
      have heq : ctx.bitIndex + numBits + (ctx.cacheNumBits - numBits) =
          ctx.bitIndex + ctx.cacheNumBits := by omega
      rw [heq]
      exact h
    · right
      omega

theorem nextVarByte_spec (ctx : ReaderContext) (hinv : ctxInv ctx)
    (h : ctx.bitIndex + 8 ≤ ctx.bufferBitSize) :
    nextVarByte ctx = .ok (bitsVal ctx.buffer ctx.bitIndex 8, (readBitsImpl ctx 8).2) ∧
    (readBitsImpl ctx 8).2.buffer = ctx.buffer ∧
    (readBitsImpl ctx 8).2.bufferBitSize = ctx.bufferBitSize ∧
    (readBitsImpl ctx 8).2.bitIndex = ctx.bitIndex + 8 ∧
    ctxInv (readBitsImpl ctx 8).2 := by
  have hspec := readBitsImpl_spec ctx 8 hinv (by omega) h
  refine ⟨?_, hspec.2.1, hspec.2.2.1, hspec.2.2.2.1, hspec.2.2.2.2⟩
  unfold nextVarByte
  rw [if_neg (by omega)]
  have hb : (readBitsImpl ctx 8).1 % 256 = bitsVal ctx.buffer ctx.bitIndex 8 := by
    rw [hspec.1]
    exact Nat.mod_eq_of_lt (bitsVal_lt _ _ _)
  simp only [hb]

/-- C5: for every valid reader state (including an empty or exhausted stream),
`readBits(0)` returns the value 0 as success and leaves the reader's bit
position (indeed the whole reader state) unchanged. -/
theorem c5_readBits_zero (ctx : ReaderContext)
    (hmax : ctx.buffer.length ≤ MAX_BUFFER_SIZE)
    (hwb : (ctx.bufferBitSize + 7) / 8 ≤ ctx.buffer.length)
    (hpos : ctx.bitIndex ≤ ctx.bufferBitSize) :
    readBits ctx 0 = .ok (0, ctx) := by
  unfold readBits
  rw [if_neg (by omega), if_neg (by omega), if_neg (by omega), if_neg (by omega)]
  unfold readBitsImpl
  simp [Nat.mod_one]

theorem c5_readBits_zero_witness :
    readBits (mkReader [37] 8) 0 = .ok (0, mkReader [37] 8) :=
  c5_readBits_zero (mkReader [37] 8) (by decide) (by decide) (by decide)

/-- C4 counterexample: with an empty span declared to hold 8 bits and a
requested width of 33, the claim (read as a biconditional) demands
`InvalidNumBits` because `33 > 32`, but `readBits` reports
`WrongBufferBitSize`, which is checked first. -/
theorem c4_counterexample :
    readBits (mkReader [] 8) 33 = .error .WrongBufferBitSize ∧
    33 > 32 ∧
    readBits (mkReader [] 8) 33 ≠ .error .InvalidNumBits := by
  decide

/-- C4 (amended): `readBits` validates in priority order — `BufferSizeExceeded`
when the span exceeds `MAX_BUFFER_SIZE`, else `WrongBufferBitSize` when the
span is shorter than `⌈bufferBitSize/8⌉`, else `InvalidNumBits` when
`numBits > 32`, else `EndOfStream` when `bitIndex + numBits` exceeds
`bufferBitSize`; when none of these holds it succeeds with the next
`numBits` stream bits and advances by `numBits`. -/
theorem c4_readBits_errors (ctx : ReaderContext) (numBits : Nat) (hinv : ctxInv ctx) :
    (MAX_BUFFER_SIZE < ctx.buffer.length →
      readBits ctx numBits = .error .BufferSizeExceeded) ∧
    (ctx.buffer.length ≤ MAX_BUFFER_SIZE →
      ctx.buffer.length < (ctx.bufferBitSize + 7) / 8 →
      readBits ctx numBits = .error .WrongBufferBitSize) ∧
    (ctx.buffer.length ≤ MAX_BUFFER_SIZE →
      (ctx.bufferBitSize + 7) / 8 ≤ ctx.buffer.length → 32 < numBits →
      readBits ctx numBits = .error .InvalidNumBits) ∧
    (ctx.buffer.length ≤ MAX_BUFFER_SIZE →
      (ctx.bufferBitSize + 7) / 8 ≤ ctx.buffer.length → numBits ≤ 32 →
      ctx.bufferBitSize < ctx.bitIndex + numBits →
      readBits ctx numBits = .error .EndOfStream) ∧
    (ctx.buffer.length ≤ MAX_BUFFER_SIZE →
      (ctx.bufferBitSize + 7) / 8 ≤ ctx.buffer.length → numBits ≤ 32 →
      ctx.bitIndex + numBits ≤ ctx.bufferBitSize →
      readBits ctx numBits = .ok (bitsVal ctx.buffer ctx.bitIndex numBits,
          (readBitsImpl ctx numBits).2) ∧
        (readBitsImpl ctx numBits).2.bitIndex = ctx.bitIndex + numBits) := by
  refine ⟨fun h => ?_, fun h1 h2 => ?_, fun h1 h2 h3 => ?_, fun h1 h2 h3 h4 => ?_,
    fun h1 h2 h3 h4 => ?_⟩
  · unfold readBits
    rw [if_pos (by omega)]
  · unfold readBits
    rw [if_neg (by omega), if_pos (by omega)]
  · unfold readBits
    rw [if_neg (by omega), if_neg (by omega), if_pos (by omega)]
  · unfold readBits
    rw [if_neg (by omega), if_neg (by omega), if_neg (by omega), if_pos (by omega)]
  · have hspec := readBitsImpl_spec ctx numBits hinv (by omega) h4
    refine ⟨?_, hspec.2.2.2.1⟩
    unfold readBits
    rw [if_neg (by omega), if_neg (by omega), if_neg (by omega), if_neg (by omega)]
    have hv : (readBitsImpl ctx numBits).1 % 2 ^ 32 = bitsVal ctx.buffer ctx.bitIndex numBits := by
      rw [hspec.1]
      exact Nat.mod_eq_of_lt (lt_of_lt_of_le (bitsVal_lt _ _ _)
        (Nat.pow_le_pow_right (by omega) h3))
    simp only [hv]

theorem c4_readBits_errors_witness :
    ctxInv (mkReader [255] 8) ∧
    (MAX_BUFFER_SIZE < (mkReader [255] 8).buffer.length →
      readBits (mkReader [255] 8) 3 = .error .BufferSizeExceeded) ∧
    ((mkReader [255] 8).buffer.length ≤ MAX_BUFFER_SIZE →
      (mkReader [255] 8).buffer.length < ((mkReader [255] 8).bufferBitSize + 7) / 8 →
      readBits (mkReader [255] 8) 3 = .error .WrongBufferBitSize) ∧
    ((mkReader [255] 8).buffer.length ≤ MAX_BUFFER_SIZE →
      ((mkReader [255] 8).bufferBitSize + 7) / 8 ≤ (mkReader [255] 8).buffer.length →
      32 < 3 → readBits (mkReader [255] 8) 3 = .error .InvalidNumBits) ∧
    ((mkReader [255] 8).buffer.length ≤ MAX_BUFFER_SIZE →
      ((mkReader [255] 8).bufferBitSize + 7) / 8 ≤ (mkReader [255] 8).buffer.length →
      3 ≤ 32 → (mkReader [255] 8).bufferBitSize < (mkReader [255] 8).bitIndex + 3 →
      readBits (mkReader [255] 8) 3 = .error .EndOfStream) ∧
    ((mkReader [255] 8).buffer.length ≤ MAX_BUFFER_SIZE →
      ((mkReader [255] 8).bufferBitSize + 7) / 8 ≤ (mkReader [255] 8).buffer.length →
      3 ≤ 32 → (mkReader [255] 8).bitIndex + 3 ≤ (mkReader [255] 8).bufferBitSize →
      readBits (mkReader [255] 8) 3 = .ok (bitsVal (mkReader [255] 8).buffer
          (mkReader [255] 8).bitIndex 3, (readBitsImpl (mkReader [255] 8) 3).2) ∧
        (readBitsImpl (mkReader [255] 8) 3).2.bitIndex = (mkReader [255] 8).bitIndex + 3) :=
  ⟨by decide, c4_readBits_errors (mkReader [255] 8) 3 (by decide)⟩

/-- C10: every fallible read operation of the bit stream reader checks the
span byte length against `MAX_BUFFER_SIZE = size_t::max/8 − 4` first and
returns `BufferSizeExceeded` when the span is larger, before any other
validation; hence over such an oversized span every read fails with
`BufferSizeExceeded`, for any requested width and any bit position (even
when enough bits remain). -/
theorem c10_buffer_size_exceeded (ctx : ReaderContext) (numBits : Nat)
    (h : MAX_BUFFER_SIZE < ctx.buffer.length) :
    readBits ctx numBits = .error .BufferSizeExceeded ∧
    readBits64 ctx numBits = .error .BufferSizeExceeded ∧
    readSignedBits ctx numBits = .error .BufferSizeExceeded ∧
    readSignedBits64 ctx numBits = .error .BufferSizeExceeded ∧
    readVarInt16 ctx = .error .BufferSizeExceeded ∧
    readVarInt32 ctx = .error .BufferSizeExceeded ∧
    readVarInt64 ctx = .error .BufferSizeExceeded ∧
    readVarInt ctx = .error .BufferSizeExceeded ∧
    readVarUInt16 ctx = .error .BufferSizeExceeded ∧
    readVarUInt32 ctx = .error .BufferSizeExceeded ∧
    readVarUInt64 ctx = .error .BufferSizeExceeded ∧
    readVarUInt ctx = .error .BufferSizeExceeded ∧
    readVarSize ctx = .error .BufferSizeExceeded ∧
    readFloat16 ctx = .error .BufferSizeExceeded ∧
    readFloat32 ctx = .error .BufferSizeExceeded ∧
    readFloat64 ctx = .error .BufferSizeExceeded ∧
    readBool ctx = .error .BufferSizeExceeded := by
  have hp : varPrelude ctx = some .BufferSizeExceeded := by
    unfold varPrelude
    rw [if_pos (by omega)]
  refine ⟨?_, ?_, ?_, ?_, ?_, ?_, ?_, ?_, ?_, ?_, ?_, ?_, ?_, ?_, ?_, ?_, ?_⟩ <;>
    simp only [readBits, readBits64, readSignedBits, readSignedBits64, readVarInt16,
      readVarInt32, readVarInt64, readVarInt, readVarUInt16, readVarUInt32, readVarUInt64,
      readVarUInt, readVarSize, readFloat16, readFloat32, readFloat64, readBool, hp,
      gt_iff_lt, if_pos (show MAX_BUFFER_SIZE < ctx.buffer.length from h)]

theorem c10_buffer_size_exceeded_witness :
    readBits (mkReader (List.replicate (MAX_BUFFER_SIZE + 1) 0) 0) 8 =
        .error .BufferSizeExceeded ∧
    readBits64 (mkReader (List.replicate (MAX_BUFFER_SIZE + 1) 0) 0) 8 =
        .error .BufferSizeExceeded ∧
    readSignedBits (mkReader (List.replicate (MAX_BUFFER_SIZE + 1) 0) 0) 8 =
        .error .BufferSizeExceeded ∧
    readSignedBits64 (mkReader (List.replicate (MAX_BUFFER_SIZE + 1) 0) 0) 8 =
        .error .BufferSizeExceeded ∧
    readVarInt16 (mkReader (List.replicate (MAX_BUFFER_SIZE + 1) 0) 0) =
        .error .BufferSizeExceeded ∧
    readVarInt32 (mkReader (List.replicate (MAX_BUFFER_SIZE + 1) 0) 0) =
        .error .BufferSizeExceeded ∧
    readVarInt64 (mkReader (List.replicate (MAX_BUFFER_SIZE + 1) 0) 0) =
        .error .BufferSizeExceeded ∧
    readVarInt (mkReader (List.replicate (MAX_BUFFER_SIZE + 1) 0) 0) =
        .error .BufferSizeExceeded ∧
    readVarUInt16 (mkReader (List.replicate (MAX_BUFFER_SIZE + 1) 0) 0) =
        .error .BufferSizeExceeded ∧
    readVarUInt32 (mkReader (List.replicate (MAX_BUFFER_SIZE + 1) 0) 0) =
        .error .BufferSizeExceeded ∧
    readVarUInt64 (mkReader (List.replicate (MAX_BUFFER_SIZE + 1) 0) 0) =
        .error .BufferSizeExceeded ∧
    readVarUInt (mkReader (List.replicate (MAX_BUFFER_SIZE + 1) 0) 0) =
        .error .BufferSizeExceeded ∧
    readVarSize (mkReader (List.replicate (MAX_BUFFER_SIZE + 1) 0) 0) =
        .error .BufferSizeExceeded ∧
    readFloat16 (mkReader (List.replicate (MAX_BUFFER_SIZE + 1) 0) 0) =
        .error .BufferSizeExceeded ∧
    readFloat32 (mkReader (List.replicate (MAX_BUFFER_SIZE + 1) 0) 0) =
        .error .BufferSizeExceeded ∧
    readFloat64 (mkReader (List.replicate (MAX_BUFFER_SIZE + 1) 0) 0) =
        .error .BufferSizeExceeded ∧
    readBool (mkReader (List.replicate (MAX_BUFFER_SIZE + 1) 0) 0) =
        .error .BufferSizeExceeded :=
  c10_buffer_size_exceeded (mkReader (List.replicate (MAX_BUFFER_SIZE + 1) 0) 0) 8
    (by simp [mkReader])

theorem toBits_length (v n : Nat) : (toBits v n).length = n := by
  simp [toBits]

theorem toBits_getD (v n i : Nat) (hi : i < n) :
    (toBits v n).getD i 0 = v / 2 ^ (n - 1 - i) % 2 := by
  rw [List.getD_eq_getElem (toBits v n) 0 (by simpa [toBits_length])]
  simp [toBits]

theorem toBits_bits_lt (v n : Nat) : ∀ x ∈ toBits v n, x < 2 := by
  intro x hx
  simp only [toBits, List.mem_map] at hx
  obtain ⟨i, _, hi⟩ := hx
  rw [← hi]
  exact Nat.mod_lt _ (by omega)

theorem bitsFold_acc (l : List Nat) :
    ∀ a, l.foldl (fun a b => 2 * a + b) a =
      a * 2 ^ l.length + l.foldl (fun a b => 2 * a + b) 0 := by
  induction l with
  | nil => intro a; simp
  | cons b t ih =>
    intro a
    simp only [List.foldl_cons, List.length_cons]
    rw [ih (2 * a + b), ih (2 * 0 + b), pow_succ]
    ring

theorem bitsFold_lt (l : List Nat) (h : ∀ x ∈ l, x < 2) :
    l.foldl (fun a b => 2 * a + b) 0 < 2 ^ l.length := by
  induction l with
  | nil => simp
  | cons b t ih =>
    have hb : b < 2 := h b (by simp)
    have ht := ih (fun x hx => h x (by simp [hx]))
    simp only [List.foldl_cons, List.length_cons, Nat.mul_zero, Nat.zero_add]
    rw [bitsFold_acc t b, pow_succ]
    rcases (by omega : b = 0 ∨ b = 1) with hb1 | hb1 <;> subst hb1 <;> omega

theorem bitsFold_extract (l : List Nat) (h : ∀ x ∈ l, x < 2) :
    ∀ i, i < l.length → l.foldl (fun a b => 2 * a + b) 0 / 2 ^ (l.length - 1 - i) % 2 =
      l.getD i 0 := by
  induction l with
  | nil => intro i hi; simp at hi
  | cons b t ih =>
    intro i hi
    have hb : b < 2 := h b (by simp)
    have ht : ∀ x ∈ t, x < 2 := fun x hx => h x (by simp [hx])
    have hdec : (b :: t).foldl (fun a b => 2 * a + b) 0 =
        2 ^ t.length * b + t.foldl (fun a b => 2 * a + b) 0 := by
      simp only [List.foldl_cons]
      rw [bitsFold_acc t (2 * 0 + b)]
      ring
    have hflt := bitsFold_lt t ht
    match i with
    | 0 =>
      simp only [List.length_cons, List.getD_cons_zero, Nat.add_sub_cancel, Nat.sub_zero]
      rw [hdec, Nat.mul_add_div (pow_pos (by omega) _), Nat.div_eq_of_lt hflt, Nat.add_zero]
      exact Nat.mod_eq_of_lt hb
    | i + 1 =>
      simp only [List.length_cons, List.getD_cons_succ]
      have hlen : t.length + 1 - 1 - (i + 1) = t.length - 1 - i := by omega
      rw [hlen, hdec]
      have hi' : i < t.length := by simp at hi; omega
      have hsplit : 2 ^ t.length * b =
          2 ^ (t.length - 1 - i) * (b * 2 ^ i * 2) := by
        have ht' : t.length = (t.length - 1 - i) + (i + 1) := by omega
        nth_rewrite 1 [ht']
        rw [pow_add, pow_succ]
        ring
      rw [hsplit, Nat.mul_add_div (pow_pos (by omega) _)]
      rw [Nat.mul_add_mod', ih ht i hi']

theorem byteOfBits_lt (l : List Nat) (h : ∀ x ∈ l, x < 2) (hlen : l.length ≤ 8) :
    byteOfBits l < 256 := by
  unfold byteOfBits
  have h1 := bitsFold_lt l h
  calc l.foldl (fun a b => 2 * a + b) 0 * 2 ^ (8 - l.length)
      < 2 ^ l.length * 2 ^ (8 - l.length) :=
        mul_lt_mul_of_pos_right h1 (pow_pos (by omega) _)
    _ = 2 ^ 8 := by
        rw [← pow_add]
        congr 1
        omega
    _ = 256 := by norm_num

theorem byteOfBits_bit (l : List Nat) (h : ∀ x ∈ l, x < 2) (hlen : l.length ≤ 8)
    (i : Nat) (hi : i < 8) :
    byteOfBits l / 2 ^ (7 - i) % 2 = l.getD i 0 := by
  unfold byteOfBits
  by_cases hik : i < l.length
  · have hsplit : (2 : Nat) ^ (7 - i) = 2 ^ (l.length - 1 - i) * 2 ^ (8 - l.length) := by
      rw [← pow_add]
      congr 1
      omega
    rw [hsplit,
      show l.foldl (fun a b => 2 * a + b) 0 * 2 ^ (8 - l.length) =
        2 ^ (8 - l.length) * l.foldl (fun a b => 2 * a + b) 0 from mul_comm _ _,
      mul_comm (2 ^ (l.length - 1 - i)) (2 ^ (8 - l.length)),
      Nat.mul_div_mul_left _ _ (pow_pos (by omega) _)]
    exact bitsFold_extract l h i hik
  · have hgd : l.getD i 0 = 0 := List.getD_eq_default l 0 (by omega)
    rw [hgd]
    have hsplit : l.foldl (fun a b => 2 * a + b) 0 * 2 ^ (8 - l.length) =
        l.foldl (fun a b => 2 * a + b) 0 * 2 ^ (i - l.length) * 2 * 2 ^ (7 - i) := by
      have h8 : 8 - l.length = (i - l.length) + 1 + (7 - i) := by omega
      rw [h8, pow_add, pow_add, pow_one]
      ring
    rw [hsplit, Nat.mul_div_cancel _ (pow_pos (by omega) _), Nat.mul_mod_left]

theorem packBytes_length (l : List Nat) : (packBytes l).length = (l.length + 7) / 8 := by
  induction l using packBytes.induct with
  | case1 => rw [packBytes]; simp
  | case2 l hne ih =>
    rw [packBytes, if_neg hne]
    simp only [List.length_cons, ih, List.length_drop]
    have hpos : l.length ≠ 0 := by simpa [List.length_eq_zero] using hne
    omega

theorem bytesOk_packBytes (l : List Nat) (h : ∀ x ∈ l, x < 2) : bytesOk (packBytes l) := by
  induction l using packBytes.induct with
  | case1 => rw [packBytes]; simp [bytesOk]
  | case2 l hne ih =>
    rw [packBytes, if_neg hne]
    intro x hx
    rcases List.mem_cons.mp hx with hx | hx
    · rw [hx]
      exact byteOfBits_lt _ (fun y hy => h y (List.mem_of_mem_take hy))
        (by simp)
    · exact ih (fun y hy => h y (List.mem_of_mem_drop hy)) x hx

theorem getD_take_of_lt (l : List Nat) (n i : Nat) (hi : i < n) :
    (l.take n).getD i 0 = l.getD i 0 := by
  rcases Nat.lt_or_ge i l.length with hil | hil
  · rw [List.getD_eq_getElem _ 0 (by simp; omega), List.getD_eq_getElem _ 0 hil]
    simp
  · rw [List.getD_eq_default _ 0 (by simp; omega), List.getD_eq_default _ 0 hil]

theorem getD_drop (l : List Nat) (n j : Nat) : (l.drop n).getD j 0 = l.getD (n + j) 0 := by
  rcases Nat.lt_or_ge (n + j) l.length with hil | hil
  · rw [List.getD_eq_getElem _ 0 (by simp; omega), List.getD_eq_getElem _ 0 hil]
    simp
  · rw [List.getD_eq_default _ 0 (by simp; omega), List.getD_eq_default _ 0 hil]

theorem bitAt_packBytes (l : List Nat) (h2 : ∀ x ∈ l, x < 2) :
    ∀ i, i < l.length → bitAt (packBytes l) i = l.getD i 0 := by
  induction l using packBytes.induct with
  | case1 =>
    intro i hi
    simp at hi
  | case2 l hne ih =>
    intro i hi
    rw [packBytes, if_neg hne]
    by_cases h8 : i < 8
    · unfold bitAt
      have hdi : i / 8 = 0 := by omega
      have hmi : i % 8 = i := by omega
      rw [hdi, hmi, List.getD_cons_zero]
      rw [byteOfBits_bit (l.take 8) (fun y hy => h2 y (List.mem_of_mem_take hy)) (by simp) i h8]
      exact getD_take_of_lt l 8 i h8
    · have hstep : bitAt (byteOfBits (l.take 8) :: packBytes (l.drop 8)) i =
          bitAt (packBytes (l.drop 8)) (i - 8) := by
        unfold bitAt
        have hdi : i / 8 = (i - 8) / 8 + 1 := by omega
        have hmi : i % 8 = (i - 8) % 8 := by omega
        rw [hdi, hmi, List.getD_cons_succ]
      rw [hstep, ih (fun y hy => h2 y (List.mem_of_mem_drop hy)) (i - 8) (by simp; omega),
        getD_drop]
      congr 1
      omega

theorem bitsVal_packBytes_toBits (v n : Nat) (hv : v < 2 ^ n) :
    bitsVal (packBytes (toBits v n)) 0 n = v := by
  refine bitsVal_of_bits _ 0 v n (fun i hi => ?_) hv
  rw [Nat.zero_add, bitAt_packBytes (toBits v n) (toBits_bits_lt v n) i (by simp [toBits_length, hi]),
    toBits_getD v n i hi]

/-- C1: writing an `n`-bit scalar value `v` (`n ≤ 32`, `v < 2^n`) with the bit
stream writer and reading it back with the bit stream reader over the produced
bytes yields `v` again, and the number of bits consumed by the read equals the
predicted `bitSizeOf`, namely `n`. -/
theorem c1_scalar_roundtrip (n v : Nat) (hn : n ≤ 32) (hv : v < 2 ^ n) :
    ∃ w ctx2,
      writeBits { bufferBitSize := n, bits := [] } v n = .ok w ∧
      readBits (mkReader (packBytes w.bits) n) n = .ok (v, ctx2) ∧
      ctx2.bitIndex = bitSizeOfFixed n v := by
  have hvmod : v % 2 ^ 32 = v :=
    Nat.mod_eq_of_lt (lt_of_lt_of_le hv (Nat.pow_le_pow_right (by omega) hn))
  have hw : writeBits { bufferBitSize := n, bits := [] } v n =
      .ok { bufferBitSize := n, bits := toBits v n } := by
    unfold writeBits
    rw [if_pos (by simp)]
    rw [hvmod]
    simp
  refine ⟨{ bufferBitSize := n, bits := toBits v n },
    (readBitsImpl (mkReader (packBytes (toBits v n)) n) n).2, hw, ?_, ?_⟩
  · have hok : bytesOk (packBytes (toBits v n)) :=
      bytesOk_packBytes _ (toBits_bits_lt v n)
    have hinv := mkReader_inv hok n
    have hspec := readBitsImpl_spec (mkReader (packBytes (toBits v n)) n) n hinv
      (by omega) (by simp [mkReader])
    unfold readBits
    have hlen : (mkReader (packBytes (toBits v n)) n).buffer.length = (n + 7) / 8 := by
      simp [mkReader, packBytes_length, toBits_length]
    rw [if_neg (by rw [hlen]; unfold MAX_BUFFER_SIZE; omega),
      if_neg (by rw [hlen]; simp [mkReader]),
      if_neg (by omega), if_neg (by simp [mkReader])]
    have hval : (readBitsImpl (mkReader (packBytes (toBits v n)) n) n).1 % 2 ^ 32 = v := by
      rw [hspec.1]
      have : bitsVal (mkReader (packBytes (toBits v n)) n).buffer
          (mkReader (packBytes (toBits v n)) n).bitIndex n = v := by
        have hb : (mkReader (packBytes (toBits v n)) n).buffer = packBytes (toBits v n) := rfl
        have hbi : (mkReader (packBytes (toBits v n)) n).bitIndex = 0 := rfl
        rw [hb, hbi]
        exact bitsVal_packBytes_toBits v n hv
      rw [this, hvmod]
    simp only [hval]
  · have hok : bytesOk (packBytes (toBits v n)) :=
      bytesOk_packBytes _ (toBits_bits_lt v n)
    have hspec := readBitsImpl_spec (mkReader (packBytes (toBits v n)) n) n
      (mkReader_inv hok n) (by omega) (by simp [mkReader])
    rw [hspec.2.2.2.1]
    simp [mkReader, bitSizeOfFixed]

theorem c1_scalar_roundtrip_witness :
    ∃ w ctx2,
      writeBits { bufferBitSize := 7, bits := [] } 85 7 = .ok w ∧
      readBits (mkReader (packBytes w.bits) 7) 7 = .ok (85, ctx2) ∧
      ctx2.bitIndex = bitSizeOfFixed 7 85 :=
  c1_scalar_roundtrip 7 85 (by decide) (by decide)

theorem toSigned64_small (r : Nat) (h : r < 2 ^ 63) : toSigned (2 ^ 64) r = r := by
  unfold toSigned
  rw [Nat.mod_eq_of_lt (by omega), if_pos (by omega)]

theorem wrapSigned64_id (x : Int) (h1 : -(2 ^ 63) ≤ x) (h2 : x < 2 ^ 63) :
    wrapSigned (2 ^ 64) x = x := by
  unfold wrapSigned
  have hcast : (((2 : Nat) ^ 64 : Nat) : Int) / 2 = 2 ^ 63 := by norm_num
  rw [hcast]
  rw [Int.emod_eq_of_lt (by omega) (by push_cast; omega)]
  omega

/-- C3: for every reader positioned at a varint field whose first byte is
exactly `0x80` (sign bit set, magnitude bits and continuation bit zero),
`readVarInt` returns `INT64_MIN = -2^63`; for every other one-byte varint
(continuation bit clear) the decoded value is the sign-adjusted 6-bit
magnitude of the first byte. -/
theorem c3_varint_first_byte (ctx : ReaderContext) (hinv : ctxInv ctx)
    (hmax : ctx.buffer.length ≤ MAX_BUFFER_SIZE)
    (hwb : (ctx.bufferBitSize + 7) / 8 ≤ ctx.buffer.length)
    (havail : ctx.bitIndex + 8 ≤ ctx.bufferBitSize)
    (hone : bitsVal ctx.buffer ctx.bitIndex 8 % 128 < 64) :
    readVarInt ctx = .ok
      ((if bitsVal ctx.buffer ctx.bitIndex 8 = 128 then (-(2 ^ 63) : Int)
        else if 128 ≤ bitsVal ctx.buffer ctx.bitIndex 8 then
          -((bitsVal ctx.buffer ctx.bitIndex 8 % 64 : Nat) : Int)
        else ((bitsVal ctx.buffer ctx.bitIndex 8 % 64 : Nat) : Int)),
        (readBitsImpl ctx 8).2) := by
  have hnb := nextVarByte_spec ctx hinv havail
  have hblt : bitsVal ctx.buffer ctx.bitIndex 8 < 256 := by
    have := bitsVal_lt ctx.buffer ctx.bitIndex 8
    norm_num at this
    exact this
  have hp : varPrelude ctx = none := by
    unfold varPrelude
    rw [if_neg (by omega), if_neg (by omega)]
  unfold readVarInt
  rw [hp, hnb.1]
  set b := bitsVal ctx.buffer ctx.bitIndex 8 with hbdef
  dsimp only
  rw [if_pos (by omega : ¬64 ≤ b % 128)]
  by_cases hsign : 128 ≤ b
  · rw [if_pos hsign]
    by_cases hz : b % 64 = 0
    · have hb128 : b = 128 := by omega
      rw [if_pos hz, if_pos hb128]
    · have hb128 : ¬b = 128 := by omega
      rw [if_neg hz, if_neg hb128, if_pos hsign]
      rw [toSigned64_small (b % 64) (by omega)]
      rw [wrapSigned64_id (-(b % 64 : Nat)) (by push_cast; omega) (by push_cast; omega)]
  · rw [if_neg hsign, if_neg (by omega : ¬b = 128), if_neg hsign]
    rw [toSigned64_small (b % 64) (by omega)]

theorem c3_varint_first_byte_witness :
    readVarInt (mkReader [128] 8) = .ok
      ((if bitsVal (mkReader [128] 8).buffer (mkReader [128] 8).bitIndex 8 = 128
          then (-(2 ^ 63) : Int)
        else if 128 ≤ bitsVal (mkReader [128] 8).buffer (mkReader [128] 8).bitIndex 8 then
          -((bitsVal (mkReader [128] 8).buffer (mkReader [128] 8).bitIndex 8 % 64 : Nat) : Int)
        else ((bitsVal (mkReader [128] 8).buffer (mkReader [128] 8).bitIndex 8 % 64 : Nat) : Int)),
        (readBitsImpl (mkReader [128] 8) 8).2) :=
  c3_varint_first_byte (mkReader [128] 8) (by decide) (by decide) (by decide) (by decide)
    (by decide)

theorem varSizeSpecLen_pos (a b c d : Nat) : 1 ≤ varSizeSpecLen a b c d := by
  unfold varSizeSpecLen
  split_ifs <;> omega

/-- C2 counterexample: the five-byte stream `90 80 80 80 00` encodes the
varsize value `2^33`, which exceeds `2^31 - 1`, yet `readVarSize` does not
return `OutOfRange` — the fifth-byte shift wraps the `uint32_t` accumulator
to 0 before the bound check. -/
theorem c2_counterexample :
    readVarSize (mkReader [144, 128, 128, 128, 0] 40) ≠ .error .OutOfRange ∧
    varSizeSpecVal 144 128 128 128 0 = 2 ^ 33 ∧
    VARSIZE_MAX_VALUE < 2 ^ 33 := by
  decide

/-- C2 (amended): `readVarSize` decodes with a `uint32_t` accumulator, so the
value it works with is the §4.1 decoded value reduced modulo `2^32`; it
returns `OutOfRange` exactly when this truncated value exceeds `2^31 − 1`
(which can only happen for five-byte encodings), and otherwise returns the
truncated value as success, consuming exactly the encoding's bytes. -/
theorem c2_varsize_truncated (ctx : ReaderContext) (hinv : ctxInv ctx)
    (hmax : ctx.buffer.length ≤ MAX_BUFFER_SIZE)
    (hwb : (ctx.bufferBitSize + 7) / 8 ≤ ctx.buffer.length)
    (havail : ctx.bitIndex + 8 * varSizeSpecLen (bitsVal ctx.buffer ctx.bitIndex 8)
        (bitsVal ctx.buffer (ctx.bitIndex + 8) 8)
        (bitsVal ctx.buffer (ctx.bitIndex + 16) 8)
        (bitsVal ctx.buffer (ctx.bitIndex + 24) 8) ≤ ctx.bufferBitSize) :
    (VARSIZE_MAX_VALUE <
        varSizeSpecVal (bitsVal ctx.buffer ctx.bitIndex 8)
          (bitsVal ctx.buffer (ctx.bitIndex + 8) 8)
          (bitsVal ctx.buffer (ctx.bitIndex + 16) 8)
          (bitsVal ctx.buffer (ctx.bitIndex + 24) 8)
          (bitsVal ctx.buffer (ctx.bitIndex + 32) 8) % 2 ^ 32 →
      readVarSize ctx = .error .OutOfRange) ∧
    (varSizeSpecVal (bitsVal ctx.buffer ctx.bitIndex 8)
          (bitsVal ctx.buffer (ctx.bitIndex + 8) 8)
          (bitsVal ctx.buffer (ctx.bitIndex + 16) 8)
          (bitsVal ctx.buffer (ctx.bitIndex + 24) 8)
          (bitsVal ctx.buffer (ctx.bitIndex + 32) 8) % 2 ^ 32 ≤ VARSIZE_MAX_VALUE →
      ∃ ctx', readVarSize ctx = .ok
          (varSizeSpecVal (bitsVal ctx.buffer ctx.bitIndex 8)
            (bitsVal ctx.buffer (ctx.bitIndex + 8) 8)
            (bitsVal ctx.buffer (ctx.bitIndex + 16) 8)
            (bitsVal ctx.buffer (ctx.bitIndex + 24) 8)
            (bitsVal ctx.buffer (ctx.bitIndex + 32) 8) % 2 ^ 32, ctx') ∧
        ctx'.bitIndex = ctx.bitIndex + 8 * varSizeSpecLen (bitsVal ctx.buffer ctx.bitIndex 8)
          (bitsVal ctx.buffer (ctx.bitIndex + 8) 8)
          (bitsVal ctx.buffer (ctx.bitIndex + 16) 8)
          (bitsVal ctx.buffer (ctx.bitIndex + 24) 8)) := by
  set b0 := bitsVal ctx.buffer ctx.bitIndex 8 with hb0def
  set b1 := bitsVal ctx.buffer (ctx.bitIndex + 8) 8 with hb1def
  set b2 := bitsVal ctx.buffer (ctx.bitIndex + 16) 8 with hb2def
  set b3 := bitsVal ctx.buffer (ctx.bitIndex + 24) 8 with hb3def
  set b4 := bitsVal ctx.buffer (ctx.bitIndex + 32) 8 with hb4def
  have hb0lt : b0 < 256 := by rw [hb0def]; have := bitsVal_lt ctx.buffer ctx.bitIndex 8; omega
  have hb1lt : b1 < 256 := by
    rw [hb1def]; have := bitsVal_lt ctx.buffer (ctx.bitIndex + 8) 8; omega
  have hb2lt : b2 < 256 := by
    rw [hb2def]; have := bitsVal_lt ctx.buffer (ctx.bitIndex + 16) 8; omega
  have hb3lt : b3 < 256 := by
    rw [hb3def]; have := bitsVal_lt ctx.buffer (ctx.bitIndex + 24) 8; omega
  have hb4lt : b4 < 256 := by
    rw [hb4def]; have := bitsVal_lt ctx.buffer (ctx.bitIndex + 32) 8; omega
  have hp : varPrelude ctx = none := by
    unfold varPrelude
    rw [if_neg (by omega), if_neg (by omega)]
  have hlen1 := varSizeSpecLen_pos b0 b1 b2 b3
  have hav0 : ctx.bitIndex + 8 ≤ ctx.bufferBitSize := by omega
  have hs0 := nextVarByte_spec ctx hinv hav0
  unfold readVarSize
  rw [hp, hs0.1, ← hb0def]
  dsimp only
  by_cases hc0 : 128 ≤ b0
  case neg =>
    rw [if_pos hc0]
    have hval : varSizeSpecVal b0 b1 b2 b3 b4 = b0 % 128 := by
      unfold varSizeSpecVal
      rw [if_pos (by omega)]
    have hlen : varSizeSpecLen b0 b1 b2 b3 = 1 := by
      unfold varSizeSpecLen
      rw [if_pos (by omega)]
    rw [hval, hlen]
    refine ⟨fun hgt => absurd hgt (by unfold VARSIZE_MAX_VALUE; omega), fun _ => ?_⟩
    refine ⟨(readBitsImpl ctx 8).2, ?_, by rw [hs0.2.2.2.1]⟩
    rw [Nat.mod_eq_of_lt (show b0 % 128 < 2 ^ 32 by omega)]
  case pos =>
    rw [if_neg (by omega : ¬¬128 ≤ b0)]
    have hlen2 : 2 ≤ varSizeSpecLen b0 b1 b2 b3 := by
      unfold varSizeSpecLen
      rw [if_neg (by omega)]
      split_ifs <;> omega
    have hav1 : (readBitsImpl ctx 8).2.bitIndex + 8 ≤ (readBitsImpl ctx 8).2.bufferBitSize := by
      rw [hs0.2.2.2.1, hs0.2.2.1]
      omega
    have hs1 := nextVarByte_spec (readBitsImpl ctx 8).2 hs0.2.2.2.2 hav1
    have hb1eq : bitsVal (readBitsImpl ctx 8).2.buffer (readBitsImpl ctx 8).2.bitIndex 8 = b1 := by
      rw [hs0.2.1, hs0.2.2.2.1, hb1def]
    rw [hs1.1, hb1eq]
    dsimp only
    rw [Nat.mod_eq_of_lt (show b0 % 128 * 128 + b1 % 128 < 2 ^ 32 by omega)]
    by_cases hc1 : 128 ≤ b1
    case neg =>
      rw [if_pos hc1]
      have hval : varSizeSpecVal b0 b1 b2 b3 b4 = b0 % 128 * 128 + b1 % 128 := by
        unfold varSizeSpecVal
        rw [if_neg (by omega), if_pos (by omega)]
      have hlen : varSizeSpecLen b0 b1 b2 b3 = 2 := by
        unfold varSizeSpecLen
        rw [if_neg (by omega), if_pos (by omega)]
      rw [hval, hlen]
      refine ⟨fun hgt => absurd hgt (by unfold VARSIZE_MAX_VALUE; omega), fun _ => ?_⟩
      refine ⟨(readBitsImpl (readBitsImpl ctx 8).2 8).2, ?_, ?_⟩
      · rw [Nat.mod_eq_of_lt (show b0 % 128 * 128 + b1 % 128 < 2 ^ 32 by omega)]
      · rw [hs1.2.2.2.1, hs0.2.2.2.1]
    case pos =>
      rw [if_neg (by omega : ¬¬128 ≤ b1)]
      have hlen3 : 3 ≤ varSizeSpecLen b0 b1 b2 b3 := by
        unfold varSizeSpecLen
        rw [if_neg (by omega), if_neg (by omega)]
        split_ifs <;> omega
      have hav2 : (readBitsImpl (readBitsImpl ctx 8).2 8).2.bitIndex + 8 ≤
          (readBitsImpl (readBitsImpl ctx 8).2 8).2.bufferBitSize := by
        rw [hs1.2.2.2.1, hs1.2.2.1, hs0.2.2.2.1, hs0.2.2.1]
        omega
      have hs2 := nextVarByte_spec (readBitsImpl (readBitsImpl ctx 8).2 8).2 hs1.2.2.2.2 hav2
      have hb2eq : bitsVal (readBitsImpl (readBitsImpl ctx 8).2 8).2.buffer
          (readBitsImpl (readBitsImpl ctx 8).2 8).2.bitIndex 8 = b2 := by
        rw [hs1.2.1, hs0.2.1, hs1.2.2.2.1, hs0.2.2.2.1, hb2def]
      rw [hs2.1, hb2eq]
      dsimp only
      rw [Nat.mod_eq_of_lt
        (show (b0 % 128 * 128 + b1 % 128) * 128 + b2 % 128 < 2 ^ 32 by omega)]
      by_cases hc2 : 128 ≤ b2
      case neg =>
        rw [if_pos hc2]
        have hval : varSizeSpecVal b0 b1 b2 b3 b4 =
            (b0 % 128 * 128 + b1 % 128) * 128 + b2 % 128 := by
          unfold varSizeSpecVal
          rw [if_neg (by omega), if_neg (by omega), if_pos (by omega)]
        have hlen : varSizeSpecLen b0 b1 b2 b3 = 3 := by
          unfold varSizeSpecLen
          rw [if_neg (by omega), if_neg (by omega), if_pos (by omega)]
        rw [hval, hlen]
        refine ⟨fun hgt => absurd hgt (by unfold VARSIZE_MAX_VALUE; omega), fun _ => ?_⟩
        refine ⟨(readBitsImpl (readBitsImpl (readBitsImpl ctx 8).2 8).2 8).2, ?_, ?_⟩
        · rw [Nat.mod_eq_of_lt
            (show (b0 % 128 * 128 + b1 % 128) * 128 + b2 % 128 < 2 ^ 32 by omega)]
        · rw [hs2.2.2.2.1, hs1.2.2.2.1, hs0.2.2.2.1]
      case pos =>
        rw [if_neg (by omega : ¬¬128 ≤ b2)]
        have hlen4 : 4 ≤ varSizeSpecLen b0 b1 b2 b3 := by
          unfold varSizeSpecLen
          rw [if_neg (by omega), if_neg (by omega), if_neg (by omega)]
          split_ifs <;> omega
        have hav3 : (readBitsImpl (readBitsImpl (readBitsImpl ctx 8).2 8).2 8).2.bitIndex + 8 ≤
            (readBitsImpl (readBitsImpl (readBitsImpl ctx 8).2 8).2 8).2.bufferBitSize := by
          rw [hs2.2.2.2.1, hs2.2.2.1, hs1.2.2.2.1, hs1.2.2.1, hs0.2.2.2.1, hs0.2.2.1]
          omega
        have hs3 := nextVarByte_spec (readBitsImpl (readBitsImpl (readBitsImpl ctx 8).2 8).2 8).2
          hs2.2.2.2.2 hav3
        have hb3eq : bitsVal (readBitsImpl (readBitsImpl (readBitsImpl ctx 8).2 8).2 8).2.buffer
            (readBitsImpl (readBitsImpl (readBitsImpl ctx 8).2 8).2 8).2.bitIndex 8 = b3 := by
          rw [hs2.2.1, hs1.2.1, hs0.2.1, hs2.2.2.2.1, hs1.2.2.2.1, hs0.2.2.2.1, hb3def]
        rw [hs3.1, hb3eq]
        dsimp only
        rw [Nat.mod_eq_of_lt
          (show ((b0 % 128 * 128 + b1 % 128) * 128 + b2 % 128) * 128 + b3 % 128 < 2 ^ 32 by
            omega)]
        by_cases hc3 : 128 ≤ b3
        case neg =>
          rw [if_pos hc3]
          have hval : varSizeSpecVal b0 b1 b2 b3 b4 =
              ((b0 % 128 * 128 + b1 % 128) * 128 + b2 % 128) * 128 + b3 % 128 := by
            unfold varSizeSpecVal
            rw [if_neg (by omega), if_neg (by omega), if_neg (by omega), if_pos (by omega)]
          have hlen : varSizeSpecLen b0 b1 b2 b3 = 4 := by
            unfold varSizeSpecLen
            rw [if_neg (by omega), if_neg (by omega), if_neg (by omega), if_pos (by omega)]
          rw [hval, hlen]
          refine ⟨fun hgt => absurd hgt (by unfold VARSIZE_MAX_VALUE; omega), fun _ => ?_⟩
          refine ⟨(readBitsImpl (readBitsImpl (readBitsImpl (readBitsImpl ctx 8).2 8).2 8).2
            8).2, ?_, ?_⟩
          · rw [Nat.mod_eq_of_lt
              (show ((b0 % 128 * 128 + b1 % 128) * 128 + b2 % 128) * 128 + b3 % 128 < 2 ^ 32
                by omega)]
          · rw [hs3.2.2.2.1, hs2.2.2.2.1, hs1.2.2.2.1, hs0.2.2.2.1]
        case pos =>
          rw [if_neg (by omega : ¬¬128 ≤ b3)]
          have hlen5 : varSizeSpecLen b0 b1 b2 b3 = 5 := by
            unfold varSizeSpecLen
            rw [if_neg (by omega), if_neg (by omega), if_neg (by omega), if_neg (by omega)]
          have hav4 : (readBitsImpl (readBitsImpl (readBitsImpl (readBitsImpl ctx 8).2 8).2
              8).2 8).2.bitIndex + 8 ≤
              (readBitsImpl (readBitsImpl (readBitsImpl (readBitsImpl ctx 8).2 8).2
                8).2 8).2.bufferBitSize := by
            rw [hs3.2.2.2.1, hs3.2.2.1, hs2.2.2.2.1, hs2.2.2.1, hs1.2.2.2.1, hs1.2.2.1,
              hs0.2.2.2.1, hs0.2.2.1]
            rw [hlen5] at havail
            omega
          have hs4 := nextVarByte_spec
            (readBitsImpl (readBitsImpl (readBitsImpl (readBitsImpl ctx 8).2 8).2 8).2 8).2
            hs3.2.2.2.2 hav4
          have hb4eq : bitsVal (readBitsImpl (readBitsImpl (readBitsImpl (readBitsImpl ctx
              8).2 8).2 8).2 8).2.buffer
              (readBitsImpl (readBitsImpl (readBitsImpl (readBitsImpl ctx 8).2 8).2 8).2
                8).2.bitIndex 8 = b4 := by
            rw [hs3.2.1, hs2.2.1, hs1.2.1, hs0.2.1, hs3.2.2.2.1, hs2.2.2.2.1, hs1.2.2.2.1,
              hs0.2.2.2.1, hb4def]
          rw [hs4.1, hb4eq]
          dsimp only
          have hval : varSizeSpecVal b0 b1 b2 b3 b4 =
              (((b0 % 128 * 128 + b1 % 128) * 128 + b2 % 128) * 128 + b3 % 128) * 256 + b4 := by
            unfold varSizeSpecVal
            rw [if_neg (by omega), if_neg (by omega), if_neg (by omega), if_neg (by omega)]
          rw [hval, hlen5]
          constructor
          · intro hgt
            rw [if_pos (by omega)]
          · intro hle
            rw [if_neg (by omega)]
            refine ⟨(readBitsImpl (readBitsImpl (readBitsImpl (readBitsImpl (readBitsImpl ctx
              8).2 8).2 8).2 8).2 8).2, rfl, ?_⟩
            rw [hs4.2.2.2.1, hs3.2.2.2.1, hs2.2.2.2.1, hs1.2.2.2.1, hs0.2.2.2.1]

theorem c2_varsize_truncated_witness :
    VARSIZE_MAX_VALUE <
        varSizeSpecVal (bitsVal [144, 128, 128, 128, 0] 0 8) (bitsVal [144, 128, 128, 128, 0] 8 8)
          (bitsVal [144, 128, 128, 128, 0] 16 8) (bitsVal [144, 128, 128, 128, 0] 24 8)
          (bitsVal [144, 128, 128, 128, 0] 32 8) % 2 ^ 32 ∨
      (readVarSize (mkReader [144, 128, 128, 128, 0] 40)).isOk := by
  have h := c2_varsize_truncated (mkReader [144, 128, 128, 128, 0] 40) (by decide) (by decide)
    (by decide) (by decide)
  right
  obtain ⟨ctx', heq, _⟩ := h.2 (by decide)
  rw [show (mkReader [144, 128, 128, 128, 0] 40).buffer = [144, 128, 128, 128, 0] from rfl,
    show (mkReader [144, 128, 128, 128, 0] 40).bitIndex = 0 from rfl] at heq
  rw [heq]
  rfl

theorem absDeltaBitLength_le (k : Nat) : ∀ n, n < 2 ^ k → absDeltaBitLength n ≤ k := by
  induction k with
  | zero =>
    intro n hn
    have hn0 : n = 0 := by omega
    rw [hn0, absDeltaBitLength]
    simp
  | succ j ih =>
    intro n hn
    rw [absDeltaBitLength]
    by_cases h0 : n = 0
    · simp [h0]
    · rw [if_neg h0]
      have := ih (n / 2) (by rw [pow_succ] at hn; omega)
      omega

theorem calcBitLength_le_64 (lhs rhs : Int) : calcBitLength lhs rhs ≤ 64 := by
  unfold calcBitLength
  split_ifs <;> exact absDeltaBitLength_le 64 _ (by omega)

/-- Field invariant maintained by `DeltaContext.init`: `m_maxBitNumber` stays
within the range `calcBitLength` can produce and `m_firstElementBitSize`
stays a `uint8_t` value. -/
def initInv (c : DeltaContext) : Prop :=
  c.maxBitNumber ≤ 64 ∧ c.firstElementBitSize < 256 ∧
  c.numElements < 2 ^ 32 ∧ c.unpackedBitSize < 2 ^ 64

theorem init_step_facts (tr : ElemTraits) (c : DeltaContext) (e : Int) (h : initInv c) :
    initInv (DeltaContext.init tr c e) ∧
    (DeltaContext.init tr c e).numElements = (c.numElements + 1) % 2 ^ 32 ∧
    (DeltaContext.init tr c e).unpackedBitSize =
      (c.unpackedBitSize + tr.bitSizeOf e) % 2 ^ 64 := by
  obtain ⟨hmax, hfe, hnum, hunp⟩ := h
  unfold DeltaContext.init
  try dsimp only
  by_cases h1 : c.initStarted
  · rw [if_neg (by simp [h1])]
    by_cases h2 : c.maxBitNumber ≤ MAX_BIT_NUMBER_LIMIT
    · rw [if_pos h2]
      try dsimp only
      by_cases h3 : calcBitLength e (tr.fromU64 c.previousElement) > c.maxBitNumber
      · rw [if_pos h3]
        try dsimp only
        by_cases h4 : calcBitLength e (tr.fromU64 c.previousElement) > MAX_BIT_NUMBER_LIMIT
        · rw [if_pos h4]
          exact ⟨⟨calcBitLength_le_64 _ _, hfe, Nat.mod_lt _ (by omega),
            Nat.mod_lt _ (by omega)⟩, rfl, rfl⟩
        · rw [if_neg h4]
          exact ⟨⟨calcBitLength_le_64 _ _, hfe, Nat.mod_lt _ (by omega),
            Nat.mod_lt _ (by omega)⟩, rfl, rfl⟩
      · rw [if_neg h3]
        exact ⟨⟨hmax, hfe, Nat.mod_lt _ (by omega), Nat.mod_lt _ (by omega)⟩, rfl, rfl⟩
    · rw [if_neg h2]
      exact ⟨⟨hmax, hfe, Nat.mod_lt _ (by omega), Nat.mod_lt _ (by omega)⟩, rfl, rfl⟩
  · rw [if_pos (by simp [h1])]
    refine ⟨⟨hmax, ?_, Nat.mod_lt _ (by omega), Nat.mod_lt _ (by omega)⟩, rfl, rfl⟩
    exact Nat.mod_lt _ (by omega)

theorem init_fold_facts (tr : ElemTraits) (es : List Int) :
    ∀ c : DeltaContext, initInv c →
      initInv (es.foldl (DeltaContext.init tr) c) ∧
      (es.foldl (DeltaContext.init tr) c).numElements = (c.numElements + es.length) % 2 ^ 32 ∧
      (es.foldl (DeltaContext.init tr) c).unpackedBitSize =
        (c.unpackedBitSize + (es.map tr.bitSizeOf).sum) % 2 ^ 64 := by
  induction es with
  | nil =>
    intro c h
    obtain ⟨h1, h2, h3, h4⟩ := h
    refine ⟨⟨h1, h2, h3, h4⟩, ?_, ?_⟩ <;> simp
    · omega
    · omega
  | cons e es ih =>
    intro c h
    have hstep := init_step_facts tr c e h
    have hrec := ih (DeltaContext.init tr c e) hstep.1
    refine ⟨hrec.1, ?_, ?_⟩
    · rw [List.foldl_cons, hrec.2.1, hstep.2.1, Nat.mod_add_mod]
      simp [List.length_cons]
      congr 1
      omega
    · rw [List.foldl_cons, hrec.2.2, hstep.2.2, Nat.mod_add_mod]
      simp [List.map_cons, List.sum_cons]
      congr 1
      omega

theorem c7_step (tr : ElemTraits) (c : DeltaContext) (e : Int) :
    ((MAX_BIT_NUMBER_LIMIT < c.maxBitNumber → c.isPacked = false) →
      (MAX_BIT_NUMBER_LIMIT < (DeltaContext.init tr c e).maxBitNumber →
        (DeltaContext.init tr c e).isPacked = false)) ∧
    (MAX_BIT_NUMBER_LIMIT < c.maxBitNumber →
      (DeltaContext.init tr c e).maxBitNumber = c.maxBitNumber ∧
      (DeltaContext.init tr c e).isPacked = c.isPacked) := by
  unfold DeltaContext.init
  by_cases h1 : c.initStarted
  · rw [if_neg (by simp [h1])]
    by_cases h2 : c.maxBitNumber ≤ MAX_BIT_NUMBER_LIMIT
    · rw [if_pos h2]
      try dsimp only
      by_cases h3 : calcBitLength e (tr.fromU64 c.previousElement) > c.maxBitNumber
      · rw [if_pos h3]
        try dsimp only
        by_cases h4 : calcBitLength e (tr.fromU64 c.previousElement) > MAX_BIT_NUMBER_LIMIT
        · rw [if_pos h4]
          constructor
          · intro _ _
            rfl
          · intro hgt
            exact absurd hgt (by omega)
        · rw [if_neg h4]
          constructor
          · intro _ hgt
            have hno : ¬MAX_BIT_NUMBER_LIMIT < calcBitLength e (tr.fromU64 c.previousElement) := by
              omega
            exact absurd hgt hno
          · intro hgt
            exact absurd hgt (by omega)
      · rw [if_neg h3]
        constructor
        · intro _ hgt
          have hno : ¬MAX_BIT_NUMBER_LIMIT < c.maxBitNumber := by omega
          exact absurd hgt hno
        · intro hgt
          exact absurd hgt (by omega)
    · rw [if_neg h2]
      exact ⟨fun hP hgt => hP hgt, fun _ => ⟨rfl, rfl⟩⟩
  · rw [if_pos (by simp [h1])]
    exact ⟨fun hP hgt => hP hgt, fun _ => ⟨rfl, rfl⟩⟩

/-- C7: once the running `maxBitNumber` of a delta context exceeds the hard
cap `MAX_BIT_NUMBER_LIMIT = 62`, the `IS_PACKED` flag is cleared, and for all
subsequent `init` calls of the same context the flag stays cleared (and
`maxBitNumber` no longer changes), regardless of the later elements. -/
theorem c7_is_packed_latched (tr : ElemTraits) (es : List Int) (c : DeltaContext)
    (h : MAX_BIT_NUMBER_LIMIT < c.maxBitNumber → c.isPacked = false) :
    (MAX_BIT_NUMBER_LIMIT < (es.foldl (DeltaContext.init tr) c).maxBitNumber →
      (es.foldl (DeltaContext.init tr) c).isPacked = false) ∧
    (MAX_BIT_NUMBER_LIMIT < c.maxBitNumber →
      (es.foldl (DeltaContext.init tr) c).isPacked = false ∧
      (es.foldl (DeltaContext.init tr) c).maxBitNumber = c.maxBitNumber) := by
  induction es generalizing c with
  | nil =>
    exact ⟨h, fun hgt => ⟨h hgt, rfl⟩⟩
  | cons e es ih =>
    have hstep := c7_step tr c e
    have h' := hstep.1 h
    have hrec := ih (DeltaContext.init tr c e) h'
    simp only [List.foldl_cons]
    refine ⟨hrec.1, fun hgt => ?_⟩
    obtain ⟨hm, hp⟩ := hstep.2 hgt
    have hgt' : MAX_BIT_NUMBER_LIMIT < (DeltaContext.init tr c e).maxBitNumber := by omega
    obtain ⟨hp', hm'⟩ := hrec.2 hgt'
    exact ⟨hp', by omega⟩

/-- Element traits of a `uint32_t` array for concrete instantiations:
constant unpacked bit size 32 and identity `uint64_t` conversion. -/
def sampleU32Traits : ElemTraits :=
  { bitSizeOf := fun _ => 32, fromU64 := fun n => (n : Int) }

theorem c7_is_packed_latched_witness :
    (MAX_BIT_NUMBER_LIMIT <
        (([0, 2 ^ 63] : List Int).foldl (DeltaContext.init sampleU32Traits) {}).maxBitNumber →
      (([0, 2 ^ 63] : List Int).foldl (DeltaContext.init sampleU32Traits) {}).isPacked = false) ∧
    (MAX_BIT_NUMBER_LIMIT < ({} : DeltaContext).maxBitNumber →
      (([0, 2 ^ 63] : List Int).foldl (DeltaContext.init sampleU32Traits) {}).isPacked = false ∧
      (([0, 2 ^ 63] : List Int).foldl (DeltaContext.init sampleU32Traits) {}).maxBitNumber =
        ({} : DeltaContext).maxBitNumber) :=
  c7_is_packed_latched sampleU32Traits [0, 2 ^ 63] {} (by decide)

/-- C6: after a delta context is initialized by `init` over `n ≥ 1` elements,
`finishInit` keeps the `IS_PACKED` flag set only when
`1 + 6 + firstElementBitSize + (n − 1)·(maxBitNumber + [maxBitNumber > 0])`
is strictly smaller than `1 +` the sum of the elements' unpacked bit sizes;
consequently the bit size of the chosen encoding never exceeds the bit size
of the unpacked encoding (both including their descriptor bit). -/
theorem c6_packing_decision (tr : ElemTraits) (es : List Int) (cF : DeltaContext)
    (hne : es ≠ []) (hn : es.length < 2 ^ 32)
    (hsum : (es.map tr.bitSizeOf).sum + 1 < 2 ^ 64)
    (hcF : cF = es.foldl (DeltaContext.init tr) {}) :
    (cF.finishInit.isPacked = true →
      1 + 6 + cF.firstElementBitSize +
        (es.length - 1) * (cF.maxBitNumber + if cF.maxBitNumber > 0 then 1 else 0) <
        1 + (es.map tr.bitSizeOf).sum) ∧
    ((if cF.finishInit.isPacked then
        1 + 6 + cF.firstElementBitSize +
          (es.length - 1) * (cF.maxBitNumber + if cF.maxBitNumber > 0 then 1 else 0)
      else 1 + (es.map tr.bitSizeOf).sum) ≤ 1 + (es.map tr.bitSizeOf).sum) := by
  have hfold := init_fold_facts tr es {} (by
    unfold initInv
    refine ⟨by decide, by decide, by decide, by decide⟩)
  rw [← hcF] at hfold
  obtain ⟨⟨hmax64, hfe, _, _⟩, hnum, hsum'⟩ := hfold
  have hlen1 : 1 ≤ es.length := by
    cases es with
    | nil => exact absurd rfl hne
    | cons a l => simp
  have hnum' : cF.numElements = es.length := by
    rw [hnum]
    have : ({} : DeltaContext).numElements = 0 := rfl
    rw [this, Nat.zero_add]
    exact Nat.mod_eq_of_lt hn
  have hsum'' : cF.unpackedBitSize = (es.map tr.bitSizeOf).sum := by
    rw [hsum']
    have : ({} : DeltaContext).unpackedBitSize = 0 := rfl
    rw [this, Nat.zero_add]
    exact Nat.mod_eq_of_lt (by omega)
  have hdelta : cF.maxBitNumber + (if cF.maxBitNumber > 0 then 1 else 0) ≤ 65 := by
    split_ifs <;> omega
  unfold DeltaContext.finishInit
  by_cases hP : cF.isPacked
  · rw [if_pos hP]
    try dsimp only
    have hsub : (cF.numElements + 2 ^ 32 - 1) % 2 ^ 32 = es.length - 1 := by
      rw [hnum']
      omega
    have hmul : (es.length - 1) * (cF.maxBitNumber + if cF.maxBitNumber > 0 then 1 else 0) ≤
        (2 ^ 32 - 1) * 65 := Nat.mul_le_mul (by omega) hdelta
    have hpacked : (1 + MAX_BIT_NUMBER_BITS + cF.firstElementBitSize +
        (cF.numElements + 2 ^ 32 - 1) % 2 ^ 32 *
          (cF.maxBitNumber + if cF.maxBitNumber > 0 then 1 else 0)) % 2 ^ 64 =
        1 + 6 + cF.firstElementBitSize +
          (es.length - 1) * (cF.maxBitNumber + if cF.maxBitNumber > 0 then 1 else 0) := by
      rw [hsub]
      unfold MAX_BIT_NUMBER_BITS
      exact Nat.mod_eq_of_lt (by omega)
    have hunpacked : (1 + cF.unpackedBitSize) % 2 ^ 64 = 1 + (es.map tr.bitSizeOf).sum := by
      rw [hsum'']
      exact Nat.mod_eq_of_lt (by omega)
    rw [hpacked, hunpacked]
    by_cases hge : 1 + 6 + cF.firstElementBitSize +
        (es.length - 1) * (cF.maxBitNumber + if cF.maxBitNumber > 0 then 1 else 0) ≥
        1 + (es.map tr.bitSizeOf).sum
    · rw [if_pos hge]
      constructor
      · intro hx
        simp at hx
      · simp
    · rw [if_neg hge]
      constructor
      · intro _
        omega
      · rw [if_pos hP]
        omega
  · rw [if_neg hP]
    constructor
    · intro hx
      exact absurd hx (by simpa using hP)
    · rw [if_neg hP]

theorem c6_packing_decision_witness :
    ((List.foldl (DeltaContext.init sampleU32Traits) {} [10, 11, 12, 13]).finishInit.isPacked =
        true →
      1 + 6 + (List.foldl (DeltaContext.init sampleU32Traits) {}
          [10, 11, 12, 13]).firstElementBitSize +
        (([10, 11, 12, 13] : List Int).length - 1) *
          ((List.foldl (DeltaContext.init sampleU32Traits) {} [10, 11, 12, 13]).maxBitNumber +
            if (List.foldl (DeltaContext.init sampleU32Traits) {}
                [10, 11, 12, 13]).maxBitNumber > 0 then 1 else 0) <
        1 + (([10, 11, 12, 13] : List Int).map sampleU32Traits.bitSizeOf).sum) ∧
    ((if (List.foldl (DeltaContext.init sampleU32Traits) {} [10, 11, 12, 13]).finishInit.isPacked
        then 1 + 6 + (List.foldl (DeltaContext.init sampleU32Traits) {}
            [10, 11, 12, 13]).firstElementBitSize +
          (([10, 11, 12, 13] : List Int).length - 1) *
            ((List.foldl (DeltaContext.init sampleU32Traits) {} [10, 11, 12, 13]).maxBitNumber +
              if (List.foldl (DeltaContext.init sampleU32Traits) {}
                  [10, 11, 12, 13]).maxBitNumber > 0 then 1 else 0)
        else 1 + (([10, 11, 12, 13] : List Int).map sampleU32Traits.bitSizeOf).sum) ≤
      1 + (([10, 11, 12, 13] : List Int).map sampleU32Traits.bitSizeOf).sum) :=
  c6_packing_decision sampleU32Traits [10, 11, 12, 13]
    (List.foldl (DeltaContext.init sampleU32Traits) {} [10, 11, 12, 13])
    (by decide) (by decide) (by decide) rfl

/-- C8: for an IMPLICIT-shape array read over a constant-bit-size element
trait at a valid reader position, the element count is computed as
`(bufferBitSize − currentBitPos) / elementBitSize`, and when the element bit
size is zero the read fails with `DivisionByZero`. -/
theorem c8_implicit_length (bufferBitSize bitPosition elementBitSize : Nat)
    (hpos : bitPosition ≤ bufferBitSize) (hsz : bufferBitSize < 2 ^ 64) :
    (elementBitSize = 0 →
      readArrayLengthImplicit bufferBitSize bitPosition elementBitSize =
        .error .DivisionByZero) ∧
    (elementBitSize ≠ 0 →
      readArrayLengthImplicit bufferBitSize bitPosition elementBitSize =
        .ok ((bufferBitSize - bitPosition) / elementBitSize)) := by
  constructor
  · intro h
    unfold readArrayLengthImplicit
    rw [if_pos h]
  · intro h
    unfold readArrayLengthImplicit
    rw [if_neg h]
    have hmod : (bufferBitSize + 2 ^ 64 - bitPosition) % 2 ^ 64 =
        bufferBitSize - bitPosition := by omega
    rw [hmod]

theorem c8_implicit_length_witness :
    ((4 : Nat) = 0 →
      readArrayLengthImplicit 24 8 4 = .error .DivisionByZero) ∧
    ((4 : Nat) ≠ 0 →
      readArrayLengthImplicit 24 8 4 = .ok ((24 - 8) / 4)) :=
  c8_implicit_length 24 8 4 (by decide) (by decide)

/-- C9 (code-bug evidence): `detail::checkOffset` invokes the expressions
object's `checkOffset` hook as a discarded statement and returns `void`, so
for the read path the hook's mismatch report cannot reach the caller: the
dispatcher's result is the same whether the hook reports `InvalidOffset` at
the failing index or succeeds.  (`alignAndCheckOffset` nevertheless calls
`.isError()` on this `void` result, which cannot compile when an aligned
array is instantiated.) -/
theorem c9_check_offset_discarded :
    detailCheckOffset (fun (_ : Unit) (_ : Nat) (_ : Nat) => .error .InvalidOffset) () 0 1 =
      detailCheckOffset (fun (_ : Unit) (_ : Nat) (_ : Nat) => .ok ()) () 0 1 := by
  rfl
